import Mathlib

/-!
# go-ES-Poc: sample generator, index provisioner and concurrent indexer

A shallow embedding of `main.go`.  Wall-clock readings, the search engine's
answers and the goroutine schedule are explicit inputs, so every function
below is a pure, executable definition.
-/

namespace ESPoc

/-! ## Data model (main.go, lines 17-38) -/

/-- Tag element: `type Tag struct { Name string }`. -/
structure Tag where
  Name : String
deriving DecidableEq, Repr

/-- Item object: interactions and item-level tags. -/
structure Item where
  Interactions : List String
  Tags : List Tag
deriving DecidableEq, Repr

/-- A `time.Time` value, kept as the instant it denotes: nanoseconds since the
Unix epoch.  After `.UTC()` the location is UTC, where a calendar day is
exactly 86400 seconds (Go's clock has no leap seconds). -/
structure Time where
  unixNano : Int
deriving DecidableEq, Repr

/-- Article object. -/
structure Article where
  ID : Int
  Title : String
  Body : String
  Published : Time
  Items : Item
  Tags : List Tag
deriving DecidableEq, Repr

/-- The constant `indexName` of line 38. -/
def indexName : String := "testindex"

/-! ## Library functions used by the generator -/

/-- Decimal form of an integer: `strconv.Itoa`. -/
def Itoa (i : Int) : String := toString i

/-- Joining with a separator: `strings.Join`. -/
def Join (elems : List String) (sep : String) : String := sep.intercalate elems

/-- Nanoseconds in `time.Second`. -/
def Second : Int := 1000000000

/-- Nanoseconds in one UTC calendar day. -/
def dayNanos : Int := 86400 * Second

/-- Rounding to the nearest multiple of `d` since the zero time, halfway values
rounding up: `Time.Round`.  The zero time is a whole number of seconds away from
the Unix epoch, so for the divisors used here the remainder can be taken on the
Unix reading. -/
def Time.Round (t : Time) (d : Int) : Time :=
  if d ≤ 0 then t
  else
    let r := t.unixNano % d
    if r + r < d then ⟨t.unixNano - r⟩ else ⟨t.unixNano + (d - r)⟩

/-- Switching the location to UTC keeps the instant: `Time.UTC`. -/
def Time.UTC (t : Time) : Time := t

/-- The call `AddDate(0, 0, days)` on a UTC time: same clock time, `days`
calendar days later. -/
def Time.AddDays (t : Time) (days : Int) : Time := ⟨t.unixNano + days * dayNanos⟩

/-- Number of the UTC calendar day an instant falls on (days since the epoch). -/
def Time.calendarDay (t : Time) : Int := t.unixNano / dayNanos

/-- The wall clock: `now k` is what the `k`-th call of `time.Now()` of the run
returns (counting from 0). -/
abbrev Clock := Nat → Time

/-! ## Sample generator (main.go, lines 64-91) -/

/-- The constant `count` of `generateCollection`. -/
def count : Int := 10

/-- The article literal appended in loop iteration `i`, given the reading
`t` that `time.Now()` returns in that iteration. -/
def newArticle (i : Int) (t : Time) : Article :=
  let countStr := Itoa i
  { ID := i
    Title := Join ["Title", Itoa i] " "
    Body := "Lorem ipsum dolor sit amet..."
    Published := ((t.Round Second).UTC).AddDays i
    Tags := [⟨"TagZ-" ++ countStr⟩, ⟨"TagY-" ++ countStr⟩, ⟨"TagW-" ++ countStr⟩]
    Items :=
      { Interactions := ["Interaction A" ++ countStr, "Interaction B" ++ countStr]
        Tags := [⟨"TagA-" ++ countStr⟩, ⟨"TagB-" ++ countStr⟩, ⟨"TagC-" ++ countStr⟩] } }

/-- The loop `for i := 1; i < count+1; i++`, started at `i` with `ticks`
clock readings already taken.  `fuel` bounds the number of iterations. -/
def generateLoop (now : Clock) : Nat → Int → Nat → List Article → List Article
  | 0, _, _, articles => articles
  | fuel + 1, i, ticks, articles =>
    if i < count + 1 then
      generateLoop now fuel (i + 1) (ticks + 1) (articles ++ [newArticle i (now ticks)])
    else articles

/-- Result of `generateCollection`: the collection behind the pointer and the
line written to the log. -/
structure Generated where
  articles : List Article
  logged : String
deriving DecidableEq, Repr

/-- The function `generateCollection(articles *[]Article)`. -/
def generateCollection (now : Clock) (articles : List Article) : Generated :=
  let out := generateLoop now 10 1 0 articles
  { articles := out
    logged := "> Generated " ++ Itoa out.length ++ " articles" }

/-! ## JSON documents built by the program -/

mutual
/-- Values stored in a `map[string]interface{}` document literal. -/
inductive GoValue where
  | bool (b : Bool)
  | int (i : Int)
  | str (s : String)
  | map (m : GoFields)
/-- The entries of a Go map, in the order the literal lists them. -/
inductive GoFields where
  | nil
  | cons (key : String) (value : GoValue) (rest : GoFields)
end

/-- The entries of a map as a key/value list. -/
def GoFields.toList : GoFields → List (String × GoValue)
  | .nil => []
  | .cons k v rest => (k, v) :: rest.toList

/-- The keys of a map value (no keys for a scalar). -/
def GoValue.keys : GoValue → List String
  | .map m => m.toList.map (·.1)
  | _ => []

/-- Indexing a map value: `v[key]`. -/
def GoValue.get (v : GoValue) (key : String) : Option GoValue :=
  match v with
  | .map m => m.toList.lookup key
  | _ => none

/-- Following a path of keys from the root of a document. -/
def GoValue.path (v : GoValue) : List String → Option GoValue
  | [] => some v
  | k :: ks => (v.get k).bind (fun w => w.path ks)

/-- Lower-case hexadecimal digit. -/
def hexDigit (n : Nat) : Char := "0123456789abcdef".get ⟨n % 16⟩

/-- How `encoding/json` writes one character of a string (HTML escaping on, as
`json.NewEncoder` has it by default). -/
def escapeChar (c : Char) : String :=
  if c = '"' then "\\\"" else if c = '\\' then "\\\\"
  else if c = '\n' then "\\n" else if c = '\r' then "\\r" else if c = '\t' then "\\t"
  else if c.toNat < 32 ∨ c = '<' ∨ c = '>' ∨ c = '&' then
    "\\u00" ++ String.mk [hexDigit (c.toNat / 16), hexDigit c.toNat]
  else if c.toNat = 8232 then "\\u2028" else if c.toNat = 8233 then "\\u2029"
  else String.singleton c

/-- A JSON string literal. -/
def quote (s : String) : String :=
  "\"" ++ String.join (s.toList.map escapeChar) ++ "\""

/-- Byte-wise order on map keys. -/
def keyLess (a b : String) : Bool :=
  decide (a.toList.map Char.toNat < b.toList.map Char.toNat)

/-- Insertion of an encoded entry into a key-sorted list. -/
def insertEntry (e : String × String) : List (String × String) → List (String × String)
  | [] => [e]
  | x :: xs => if keyLess e.1 x.1 then e :: x :: xs else x :: insertEntry e xs

/-- Map entries are written in key order. -/
def sortEntries (es : List (String × String)) : List (String × String) :=
  es.foldr insertEntry []

mutual
/-- The JSON text of a document: `json.Marshal`. -/
def jsonMarshal : GoValue → String
  | .bool b => if b then "true" else "false"
  | .int i => Itoa i
  | .str s => quote s
  | .map m =>
    "\x7b" ++ ",".intercalate ((sortEntries (marshalFields m)).map
      (fun e => quote e.1 ++ ":" ++ e.2)) ++ "\x7d"
/-- Every entry of a map with its value encoded. -/
def marshalFields : GoFields → List (String × String)
  | .nil => []
  | .cons k v rest => (k, jsonMarshal v) :: marshalFields rest
end

/-- The call `json.NewEncoder(&buf).Encode(v)` on a document: the buffer holds
the JSON text and a newline.  Documents of type `GoValue` always encode; the
error branch belongs to values this type cannot hold. -/
def jsonEncode (v : GoValue) : Except String String :=
  .ok (jsonMarshal v ++ "\n")

/-! ## Index mapping (main.go, lines 109-139) -/

/-- The function `getMapping()`. -/
def getMapping : GoValue :=
  .map (
    .cons "settings" (.map (
      .cons "number_of_shards" (.int 1) .nil)) (
    .cons "mappings" (.map (
      .cons "properties" (.map (
        .cons "id" (.map (.cons "type" (.str "integer") .nil)) (
        .cons "items" (.map (
          .cons "properties" (.map (
            .cons "interactions" (.map (
              .cons "enabled" (.bool false) (
              .cons "type" (.str "nested") .nil))) (
            .cons "tags" (.map (
              .cons "type" (.str "nested") (
              .cons "include_in_root" (.bool true) (
              .cons "properties" (.map (
                .cons "name" (.map (
                  .cons "type" (.str "keyword") .nil)) .nil)) .nil)))) .nil))) .nil)) .nil))) .nil)) .nil))

/-! ## The search engine client -/

/-- What the program reads of an `esapi.Response`. -/
structure Response where
  StatusCode : Int
  /-- The text `http.StatusText(StatusCode)`. -/
  StatusText : String
  Body : String
deriving DecidableEq, Repr

/-- The method `IsError`: status above 299. -/
def Response.IsError (r : Response) : Bool := decide (r.StatusCode > 299)

/-- The method `Status`: code and status text. -/
def Response.Status (r : Response) : String := Itoa r.StatusCode ++ " " ++ r.StatusText

/-- The method `String`: the bracketed status, then the body when there is one. -/
def Response.String (r : Response) : String :=
  "[" ++ r.Status ++ "]" ++ (if r.Body.length > 0 then " " ++ r.Body else "")

/-- The fields `indexArticle` sets on an `esapi.IndexRequest`. -/
structure IndexRequest where
  Index : String
  DocumentID : String
  Body : String
  Refresh : String
deriving DecidableEq, Repr

/-- The engine as the client sees it.  Each call yields `.ok res` for the pair
`(res, nil)` and `.error e` for the pair `(nil, err)` that the client returns
when the transport fails.  `Index` also sees the requests the engine received
before. -/
structure Engine where
  Exists : List String → Except String Response
  Create : String → String → Except String Response
  Index : List IndexRequest → IndexRequest → Except String Response

/-- A request handed to the client. -/
inductive Call where
  | indicesExists (index : List String)
  | indicesCreate (index : String) (body : String)
deriving DecidableEq, Repr

/-- How a sequential part of the program ends. -/
inductive Outcome where
  /-- Normal return. -/
  | returned
  /-- The call `log.Fatalf(format, arg)`: message logged, then `os.Exit(1)`. -/
  | fatal (format : String) (arg : String)
  /-- A run-time panic. -/
  | panicked (msg : String)
deriving DecidableEq, Repr

/-- The panic raised by reading a field through a nil pointer. -/
def nilDereference : String :=
  "runtime error: invalid memory address or nil pointer dereference"

/-! ## Index provisioner (main.go, lines 144-165) -/

/-- The function `createIndice(es)`: the requests issued, in order, and how the
function ends.  The error of `Exists` is never inspected; `res.StatusCode` is
read at once. -/
def createIndice (es : Engine) : List Call × Outcome :=
  let calls := [Call.indicesExists [indexName]]
  match es.Exists [indexName] with
  | .error _ => (calls, .panicked nilDereference)
  | .ok res =>
    if res.StatusCode = 404 then
      match jsonEncode getMapping with
      | .error e => (calls, .fatal "Error encoding query: %s" e)
      | .ok buf =>
        let calls := calls ++ [Call.indicesCreate indexName buf]
        match es.Create indexName buf with
        | .error e => (calls, .fatal "Cannot create index: %s" e)
        | .ok res =>
          if res.IsError then (calls, .fatal "Cannot create index: %s" res.String)
          else (calls, .returned)
    else (calls, .returned)

/-! ## What the indexer reads back from the engine -/

/-- A value that `json.Decode` stores in a `map[string]interface{}`.  A number
arrives as a `float64`, kept here as the rational it denotes. -/
inductive JSONValue where
  | null
  | bool (b : Bool)
  | float64 (x : Rat)
  | str (s : String)
  | array (xs : List JSONValue)
  | object (m : List (String × JSONValue))

/-- A number with its fraction dropped (rounding towards zero). -/
def truncate (x : Rat) : Int := x.num.tdiv x.den

/-- The 64-bit two's-complement integer with the bits of `v`. -/
def wrap64 (v : Int) : Int := (v + 2 ^ 63) % 2 ^ 64 - 2 ^ 63

/-- The conversion `int(x)` of a `float64` to the 64-bit `int`: the fraction is
dropped when the result fits in 64 bits.  When it does not, the language leaves
the outcome to the implementation: `overflow x`, brought into 64 bits, stands
for it. -/
def goInt (overflow : Rat → Int) (x : Rat) : Int :=
  if -(2 ^ 63) ≤ truncate x ∧ truncate x < 2 ^ 63 then truncate x else wrap64 (overflow x)

/-- What the indexer takes from its libraries and its platform without this
model spelling it out: `json.NewEncoder(&buf).Encode(article)` (buffer contents,
or the encoder's error), `json.NewDecoder(res.Body).Decode(&r)` (the decoded
map, or the decoder's error), and what `int(x)` yields for a `float64` outside
the 64-bit range. -/
structure Codec where
  marshal : Article → Except String String
  decode : String → Except String (List (String × JSONValue))
  overflow : Rat → Int

/-- A line written by `log.Printf` in `indexArticle`, with its arguments. -/
inductive LogLine where
  /-- The line `[%s] Error indexing document ID=%d`. -/
  | indexError (status : String) (id : Int)
  /-- The line `Error parsing the response body: %s`. -/
  | parseError (err : String)
  /-- The line `[%s] %s; version=%d`; `result` is `r["result"]`, absent when
  the key is missing. -/
  | indexed (status : String) (result : Option JSONValue) (version : Int)

/-- The line comes from the decode-and-log branch. -/
def LogLine.fromDecodeBranch : LogLine → Bool
  | .indexError _ _ => false
  | .parseError _ => true
  | .indexed _ _ _ => true

/-- What a task does with the response it received. -/
inductive Handled where
  | logged (line : LogLine)
  | panicked (msg : String)

/-- The panic of the assertion `r["_version"].(float64)` on another value. -/
def conversionPanic : String := "interface conversion: interface is not float64"

/-- Lines 196-207: the branch on `res.IsError()`, the decoding of the body and
the log line.  The arguments of the last `log.Printf` are evaluated first, so
a failed assertion on `r["_version"]` panics before anything is logged. -/
def handleResponse (cd : Codec) (article : Article) (res : Response) : Handled :=
  if res.IsError then .logged (.indexError res.Status article.ID)
  else
    match cd.decode res.Body with
    | .error e => .logged (.parseError e)
    | .ok r =>
      match r.lookup "_version" with
      | some (.float64 x) =>
        .logged (.indexed res.Status (r.lookup "result") (goInt cd.overflow x))
      | _ => .panicked conversionPanic

/-- Lines 182-187: the request object for an article whose encoding is `buf`. -/
def indexRequest (article : Article) (buf : String) : IndexRequest :=
  { Index := "testindex"
    DocumentID := Itoa article.ID
    Body := buf
    Refresh := "true" }

/-! ## Concurrent indexer (main.go, lines 169-211) -/

/-- Where a goroutine started by `indexArticle` stands. -/
inductive TaskPC where
  /-- Started by the `go` statement, body not yet run. -/
  | spawned
  /-- The call `req.Do` returned `(res, nil)`; `res.Body.Close()` is deferred. -/
  | responded (res : Response)
  /-- The response has been handled and its line logged. -/
  | logged
  /-- The conversion of `r["_version"]` panicked; deferred calls are pending. -/
  | panicking (msg : String)
  /-- The deferred `wg.Done()` has run and the goroutine has returned. -/
  | done
  /-- The deferred calls have run during the panic; the runtime is about to
  stop the process. -/
  | unwound (msg : String)
deriving DecidableEq, Repr

/-- A goroutine with the article it received as argument. -/
structure Task where
  article : Article
  pc : TaskPC
deriving DecidableEq, Repr

/-- Whether the process is alive. -/
inductive Process where
  | running
  /-- Ended by `log.Fatalf(format, arg)`. -/
  | exited (format : String) (arg : String)
  /-- Ended by an unrecovered panic. -/
  | crashed (msg : String)
deriving DecidableEq, Repr

/-- The state of a call of `indexArticle`. -/
structure State where
  /-- The goroutines started so far, in the order of the `range` loop. -/
  tasks : List Task
  /-- The counter of the `sync.WaitGroup`. -/
  wg : Int
  /-- The requests handed to `req.Do` so far. -/
  requests : List IndexRequest
  /-- The lines written by `log.Printf` so far (the message of a `log.Fatalf`
  is kept in `proc`). -/
  log : List LogLine
  /-- The call `wg.Wait()` has returned, and `indexArticle` with it. -/
  returned : Bool
  proc : Process

/-- The state on entry to `indexArticle`. -/
def State.init : State :=
  { tasks := [], wg := 0, requests := [], log := [], returned := false, proc := .running }

/-- Who takes the next step: the caller of `indexArticle`, or the goroutine
started for the article at position `i`. -/
inductive Actor where
  | main
  | task (i : Nat)
deriving DecidableEq, Repr

/-- One step of the calling goroutine: an iteration of the `range` loop
(`wg.Add(1)` and the `go` statement) while articles remain, then `wg.Wait()`,
which returns only when the counter is zero. -/
def stepMain (articles : List Article) (s : State) : Option State :=
  if s.returned then none
  else
    match articles.get? s.tasks.length with
    | some article =>
      some { s with wg := s.wg + 1, tasks := s.tasks ++ [{ article := article, pc := .spawned }] }
    | none => if s.wg = 0 then some { s with returned := true } else none

/-- The deferred `wg.Done()` of task `i`, which then stands at `pc`. -/
def wgDone (s : State) (i : Nat) (t : Task) (pc : TaskPC) : State :=
  if s.wg - 1 < 0 then { s with proc := .crashed "sync: negative WaitGroup counter" }
  else { s with wg := s.wg - 1, tasks := s.tasks.set i { t with pc := pc } }

/-- One step of the goroutine at position `i`. -/
def stepTask (cd : Codec) (es : Engine) (s : State) (i : Nat) : Option State :=
  match s.tasks.get? i with
  | none => none
  | some t =>
    match t.pc with
    | .spawned =>
      match cd.marshal t.article with
      | .error e => some { s with proc := .exited "Error encoding query: %s" e }
      | .ok buf =>
        let req := indexRequest t.article buf
        match es.Index s.requests req with
        | .error e =>
          some { s with requests := s.requests ++ [req],
                        proc := .exited "Error getting response: %s" e }
        | .ok res =>
          some { s with requests := s.requests ++ [req],
                        tasks := s.tasks.set i { t with pc := .responded res } }
    | .responded res =>
      match handleResponse cd t.article res with
      | .logged line =>
        some { s with log := s.log ++ [line], tasks := s.tasks.set i { t with pc := .logged } }
      | .panicked msg => some { s with tasks := s.tasks.set i { t with pc := .panicking msg } }
    | .logged => some (wgDone s i t .done)
    | .panicking msg => some (wgDone s i t (.unwound msg))
    | .unwound msg => some { s with proc := .crashed msg }
    | .done => none

/-- One step of an actor, when it has one.  Nothing runs once the process has
ended. -/
def step (cd : Codec) (es : Engine) (articles : List Article) (s : State) (a : Actor) :
    Option State :=
  match s.proc with
  | .running =>
    match a with
    | .main => stepMain articles s
    | .task i => stepTask cd es s i
  | _ => none

/-- The actors that can take a step. -/
def enabled (cd : Codec) (es : Engine) (articles : List Article) (s : State) : List Actor :=
  (Actor.main :: (List.range s.tasks.length).map Actor.task).filter
    (fun a => (step cd es articles s a).isSome)

/-- The scheduler lets one of the enabled actors run; `choice` says which. -/
def next (cd : Codec) (es : Engine) (articles : List Article) (s : State) (choice : Nat) :
    Option State :=
  let en := enabled cd es articles s
  (en.get? (choice % en.length)).bind (step cd es articles s)

/-- The run under a schedule, a list of scheduler choices; it stops early when
no actor can take a step. -/
def exec (cd : Codec) (es : Engine) (articles : List Article) : State → List Nat → State
  | s, [] => s
  | s, c :: cs =>
    match next cd es articles s c with
    | none => s
    | some s' => exec cd es articles s' cs

/-- The function `indexArticle(articles, es)` under a schedule. -/
def indexArticle (cd : Codec) (es : Engine) (articles : List Article) (schedule : List Nat) :
    State :=
  exec cd es articles State.init schedule

/-! ## The program (main.go, lines 40-61) -/

/-- What a run of `main` did. -/
structure Run where
  articles : List Article
  /-- Requests issued by `createIndice`. -/
  calls : List Call
  /-- How the part before `indexArticle` ended. -/
  outcome : Outcome
  /-- The state of `indexArticle`, when the run got that far. -/
  indexing : Option State

/-- The function `configES()`: the client, or the fatal exit when
`elasticsearch.NewClient`, whose result is `newClient`, fails. -/
def configES (newClient : Except String Engine) : Except Outcome Engine :=
  match newClient with
  | .error e => .error (.fatal "Error creating the client: %s" e)
  | .ok es => .ok es

/-- The function `main`: generate the collection, configure the client,
provision the index, index the collection. -/
def main (now : Clock) (cd : Codec) (newClient : Except String Engine)
    (schedule : List Nat) : Run :=
  let articles := (generateCollection now []).articles
  match configES newClient with
  | .error outcome =>
    { articles := articles, calls := [], indexing := none, outcome := outcome }
  | .ok es =>
    match createIndice es with
    | (calls, .returned) =>
      { articles := articles, calls := calls, outcome := .returned
        indexing := some (indexArticle cd es articles schedule) }
    | (calls, outcome) =>
      { articles := articles, calls := calls, outcome := outcome, indexing := none }

/-! ## Bookkeeping for the indexer's invariants -/

/-- A goroutine that has not yet run its deferred `wg.Done()` counts 1. -/
def TaskPC.pending : TaskPC → Nat
  | .spawned => 1
  | .responded _ => 1
  | .logged => 1
  | .panicking _ => 1
  | .done => 0
  | .unwound _ => 0

/-- A goroutine that has written its log line counts 1. -/
def TaskPC.lines : TaskPC → Nat
  | .logged => 1
  | .done => 1
  | _ => 0

/-- A bound on the steps a goroutine can still take (a panic takes one step
more than a normal return). -/
def TaskPC.stepsLeft : TaskPC → Nat
  | .spawned => 4
  | .responded _ => 3
  | .logged => 1
  | .panicking _ => 2
  | .unwound _ => 1
  | .done => 0

/-- The request `indexArticle` builds for an article: none when the article
does not encode. -/
def requestOf (cd : Codec) (article : Article) : List IndexRequest :=
  match cd.marshal article with
  | .ok buf => [indexRequest article buf]
  | .error _ => []

/-- The request a goroutine has handed to `req.Do` so far. -/
def Task.submitted (cd : Codec) (t : Task) : List IndexRequest :=
  match t.pc with
  | .spawned => []
  | _ => requestOf cd t.article

/-- A bound on the steps the whole call can still take, and so on the length
of a run from `s`. -/
def State.stepsLeft (articles : List Article) (s : State) : Nat :=
  match s.proc with
  | .running =>
    (if s.returned then 0 else 1 + 5 * (articles.length - s.tasks.length))
      + (s.tasks.map (fun t => t.pc.stepsLeft)).sum
  | _ => 0

/-- Facts that hold in every state of every run of `indexArticle`. -/
structure Inv (cd : Codec) (articles : List Article) (s : State) : Prop where
  /-- One goroutine per article, in the order of the collection. -/
  arts : s.tasks.map (fun t => t.article) = articles.take s.tasks.length
  len : s.tasks.length ≤ articles.length
  /-- The counter is the number of goroutines that have not called `Done`. -/
  wg : s.wg = ((s.tasks.map (fun t => t.pc.pending)).sum : Nat)
  /-- The call `wg.Wait()` returns after the loop, on a zero counter. -/
  ret : s.returned = true → s.tasks.length = articles.length ∧ s.wg = 0
  /-- One log line per goroutine that has handled its response. -/
  log : s.log.length = (s.tasks.map (fun t => t.pc.lines)).sum
  /-- While the process lives, the requests are those of the goroutines past
  `req.Do`. -/
  reqs : s.proc = .running → s.requests.Perm (s.tasks.flatMap (Task.submitted cd))
  /-- Every request is the one built for some article of the collection. -/
  form : ∀ r ∈ s.requests, ∃ a ∈ articles, ∃ buf, cd.marshal a = .ok buf ∧ r = indexRequest a buf

/-- The acknowledgement can be logged: when the body decodes, `_version` is a
number. -/
def Codec.wellFormed (cd : Codec) (res : Response) : Prop :=
  ∀ r, cd.decode res.Body = .ok r → ∃ x, r.lookup "_version" = some (.float64 x)

/-- A response the handler gets through without a panic: an error response, or
a well-formed acknowledgement. -/
def Codec.acceptable (cd : Codec) (res : Response) : Prop :=
  res.IsError = true ∨ cd.wellFormed res

/-- An answer without error: not an error response, and well formed. -/
def Codec.healthy (cd : Codec) (res : Response) : Prop :=
  res.IsError = false ∧ cd.wellFormed res

/-- The engine answers every indexing request, whatever came before, with a
response satisfying `ok`: there is no transport error. -/
def Engine.answers (es : Engine) (ok : Response → Prop) : Prop :=
  ∀ hist req, ∃ res, es.Index hist req = .ok res ∧ ok res

/-- Every article of the collection encodes. -/
def Codec.encodes (cd : Codec) (articles : List Article) : Prop :=
  ∀ a ∈ articles, ∃ buf, cd.marshal a = .ok buf

/-- The goroutine is not panicking and, when it holds a response, the response
satisfies `ok`. -/
def TaskPC.fine (ok : Response → Prop) : TaskPC → Prop
  | .responded res => ok res
  | .panicking _ => False
  | .unwound _ => False
  | _ => True

/-- Facts that hold in every state of a run in which every answer satisfies
`ok`. -/
structure Alive (ok : Response → Prop) (s : State) : Prop where
  running : s.proc = .running
  pcs : ∀ t ∈ s.tasks, t.pc.fine ok
  /-- A line of the error branch comes from an error response. -/
  lines : ∀ l ∈ s.log, l.fromDecodeBranch = false → ∃ res, ok res ∧ res.IsError = true

/-! ## Concrete inputs used to exercise the model -/

/-- The bytes `createIndice` sends as the body of the create request. -/
def mappingBody : String :=
  "\x7b\"mappings\":\x7b\"properties\":\x7b\"id\":\x7b\"type\":\"integer\"\x7d,\"items\":\x7b\"properties\":\x7b\"interactions\":\x7b\"enabled\":false,\"type\":\"nested\"\x7d,\"tags\":\x7b\"include_in_root\":true,\"properties\":\x7b\"name\":\x7b\"type\":\"keyword\"\x7d\x7d,\"type\":\"nested\"\x7d\x7d\x7d\x7d\x7d,\"settings\":\x7b\"number_of_shards\":1\x7d\x7d\n"

/-- The reading rounded to the second, in nanoseconds. -/
def roundedNano (t : Time) : Int := (t.Round Second).unixNano

/-- A clock whose first reading falls 0.4 s, and every later one 0.6 s, after
23:59:59 of the first day of the epoch. -/
def skewClock : Clock := fun k => if k = 0 then ⟨86399400000000⟩ else ⟨86399600000000⟩

/-- A clock that stands still. -/
def frozenClock : Clock := fun _ => ⟨1700000000123456789⟩

/-- The collection `main` hands to `indexArticle` under the frozen clock. -/
def sampleArticles : List Article := (generateCollection frozenClock []).articles

/-- An engine nobody listens on: every call fails in the transport. -/
def refusedEngine : Engine :=
  { Exists := fun _ => .error "dial tcp 127.0.0.1:9200: connect: connection refused"
    Create := fun _ _ => .error "dial tcp 127.0.0.1:9200: connect: connection refused"
    Index := fun _ _ => .error "dial tcp 127.0.0.1:9200: connect: connection refused" }

/-- An acknowledgement of a first write, as the engine words it. -/
def ackCreated : String :=
  "\x7b\"_index\":\"testindex\",\"_id\":\"1\",\"_version\":1,\"result\":\"created\"\x7d"

/-- A JSON object that lacks `_version`. -/
def ackBare : String := "\x7b\"result\":\"created\"\x7d"

/-- A JSON object whose `_version` is a string. -/
def ackTextVersion : String := "\x7b\"result\":\"created\",\"_version\":\"1\"\x7d"

/-- An engine without the index that accepts everything. -/
def freshEngine : Engine :=
  { Exists := fun _ => .ok ⟨404, "Not Found", ""⟩
    Create := fun _ _ => .ok ⟨200, "OK", "acknowledged"⟩
    Index := fun _ _ => .ok ⟨201, "Created", ackCreated⟩ }

/-- A server that answers every indexing request with status 201 and the
object without `_version`. -/
def bareEngine : Engine :=
  { Exists := fun _ => .ok ⟨200, "OK", ""⟩
    Create := fun _ _ => .ok ⟨200, "OK", "acknowledged"⟩
    Index := fun _ _ => .ok ⟨201, "Created", ackBare⟩ }

/-- An engine that has the index and rejects every document. -/
def rejectingEngine : Engine :=
  { Exists := fun _ => .ok ⟨200, "OK", ""⟩
    Create := fun _ _ => .ok ⟨400, "Bad Request", "resource_already_exists_exception"⟩
    Index := fun _ _ => .ok ⟨429, "Too Many Requests", "es_rejected_execution_exception"⟩ }

/-- A codec for the engines here: articles encode to a tag carrying their
identifier; the three JSON texts above decode to the objects `encoding/json`
makes of them (numbers as `float64`), and the other bodies met here, none of
them JSON, are refused; out of range, `int(x)` is the least 64-bit integer. -/
def plainCodec : Codec :=
  { marshal := fun a => .ok ("article " ++ Itoa a.ID)
    decode := fun body =>
      if body = ackCreated then
        .ok [("_index", .str "testindex"), ("_id", .str "1"), ("_version", .float64 1),
             ("result", .str "created")]
      else if body = ackBare then .ok [("result", .str "created")]
      else if body = ackTextVersion then .ok [("result", .str "created"), ("_version", .str "1")]
      else .error "invalid character looking for beginning of value"
    overflow := fun _ => -(2 ^ 63) }

/-- The answer of `freshEngine` to an indexing request. -/
def createdResponse : Response := ⟨201, "Created", ackCreated⟩

/-- The answer of `bareEngine` to an indexing request. -/
def bareResponse : Response := ⟨201, "Created", ackBare⟩

/-- A non-error response whose `_version` is a string. -/
def textResponse : Response := ⟨200, "OK", ackTextVersion⟩

/-- The answer of `rejectingEngine` to an indexing request. -/
def rejectedResponse : Response :=
  ⟨429, "Too Many Requests", "es_rejected_execution_exception"⟩

/-- A state with one goroutine started and nothing sent yet. -/
def spawnedState : State :=
  { tasks := [{ article := newArticle 1 ⟨0⟩, pc := .spawned }]
    wg := 1
    requests := []
    log := []
    returned := false
    proc := .running }

/-- A state with two goroutines, the second holding `rejectedResponse`. -/
def rejectedState : State :=
  { tasks := [{ article := newArticle 1 ⟨0⟩, pc := .spawned },
              { article := newArticle 2 ⟨0⟩, pc := .responded rejectedResponse }]
    wg := 2
    requests := [indexRequest (newArticle 2 ⟨0⟩) "article 2"]
    log := []
    returned := false
    proc := .running }

/-! # Properties -/

/-! ## Lists with one element replaced -/

theorem sum_map_set {α : Type} (f : α → Nat) :
    ∀ (l : List α) (i : Nat) (t t' : α), l.get? i = some t →
      ((l.set i t').map f).sum + f t = (l.map f).sum + f t'
  | [], i, t, t', h => by simp at h
  | x :: xs, 0, t, t', h => by
    simp at h; subst h
    simp only [List.set, List.map_cons, List.sum_cons]; omega
  | x :: xs, i + 1, t, t', h => by
    have := sum_map_set f xs i t t' (by simpa using h)
    simp only [List.set, List.map_cons, List.sum_cons]; omega

theorem map_set_same {α β : Type} (f : α → β) :
    ∀ (l : List α) (i : Nat) (t t' : α), l.get? i = some t → f t' = f t →
      (l.set i t').map f = l.map f
  | [], i, t, t', h, _ => by simp at h
  | x :: xs, 0, t, t', h, hf => by
    simp at h; subst h
    simp only [List.set, List.map_cons, hf]
  | x :: xs, i + 1, t, t', h, hf => by
    simp only [List.set, List.map_cons, map_set_same f xs i t t' (by simpa using h) hf]

theorem flatMap_set_perm {α β : Type} (g : α → List β) :
    ∀ (l : List α) (i : Nat) (t t' : α), l.get? i = some t →
      ((l.set i t').flatMap g ++ g t).Perm (l.flatMap g ++ g t')
  | [], i, t, t', h => by simp at h
  | x :: xs, 0, t, t', h => by
    simp at h; subst h
    simp only [List.set, List.flatMap_cons]
    refine List.perm_append_comm.trans ?_
    rw [List.append_assoc]
    exact List.Perm.append_left _ List.perm_append_comm
  | x :: xs, i + 1, t, t', h => by
    have := flatMap_set_perm g xs i t t' (by simpa using h)
    simp only [List.set, List.flatMap_cons, List.append_assoc]
    exact List.Perm.append_left _ this

/-! ## Invariants of the indexer -/

theorem Inv_init (cd : Codec) (articles : List Article) : Inv cd articles State.init := by
  constructor <;> simp [State.init]

theorem get?_articles_of_tasks {cd : Codec} {articles : List Article} {s : State}
    (h : Inv cd articles s) {i : Nat} {t : Task} (ht : s.tasks.get? i = some t) :
    t.article ∈ articles := by
  have h1 : (s.tasks.map (fun t => t.article)).get? i = some t.article := by
    simp [List.get?_eq_getElem?] at ht ⊢
    exact ⟨t, ht, rfl⟩
  rw [h.arts] at h1
  exact List.mem_of_mem_take (List.get?_mem h1)

theorem stepMain_inv {cd : Codec} {articles : List Article} {s s' : State}
    (h : Inv cd articles s) (hs : stepMain articles s = some s') : Inv cd articles s' := by
  unfold stepMain at hs
  split at hs
  · simp at hs
  · rename_i hret
    split at hs
    · rename_i article hart
      simp only [Option.some.injEq] at hs
      subst hs
      have hlt : s.tasks.length < articles.length := by
        rw [List.get?_eq_getElem?] at hart
        by_contra hc
        rw [List.getElem?_eq_none (by omega)] at hart
        simp at hart
      constructor
      · simp only [List.map_append, List.length_append, List.length_singleton, List.map_cons,
          List.map_nil, h.arts, List.take_succ]
        rw [List.get?_eq_getElem?] at hart
        rw [hart]; rfl
      · simp; omega
      · simp [h.wg, TaskPC.pending]
      · intro hr; exact absurd (hr : s.returned = true) (by simp [hret])
      · simp [h.log, TaskPC.lines]
      · intro hp
        simp only [List.flatMap_append, List.flatMap_cons, List.flatMap_nil, Task.submitted,
          List.append_nil]
        exact h.reqs hp
      · exact h.form
    · split at hs
      · rename_i hnone hwg
        simp only [Option.some.injEq] at hs
        subst hs
        have hlen : articles.length ≤ s.tasks.length := by
          rw [List.get?_eq_getElem?] at hnone
          by_contra hc
          have : s.tasks.length < articles.length := by omega
          rw [List.getElem?_eq_getElem this] at hnone
          simp at hnone
        exact ⟨h.arts, h.len, h.wg, fun _ => ⟨le_antisymm h.len hlen, hwg⟩, h.log, h.reqs, h.form⟩
      · simp at hs

theorem pending_le_sum (l : List Task) (i : Nat) (t : Task) (ht : l.get? i = some t) :
    t.pc.pending ≤ (l.map (fun t => t.pc.pending)).sum := by
  have := sum_map_set (fun t : Task => t.pc.pending) l i t ⟨t.article, .done⟩ ht
  have e : TaskPC.pending TaskPC.done = 0 := rfl
  dsimp only at this
  rw [e] at this
  omega

/-- A step that only ends the process keeps the invariant. -/
theorem Inv_dead {cd : Codec} {articles : List Article} {s : State}
    (h : Inv cd articles s) (reqs : List IndexRequest) (proc : Process)
    (hproc : proc ≠ .running)
    (hform : ∀ r ∈ reqs, ∃ a ∈ articles, ∃ buf, cd.marshal a = .ok buf ∧ r = indexRequest a buf) :
    Inv cd articles { s with requests := reqs, proc := proc } :=
  ⟨h.arts, h.len, h.wg, h.ret, h.log, fun hp => absurd hp hproc, hform⟩

/-- A step that moves one goroutine forward keeps the invariant, given how it
changes the counter, the log and the requests. -/
theorem Inv_update {cd : Codec} {articles : List Article} {s : State}
    (h : Inv cd articles s) {i : Nat} {t : Task} (ht : s.tasks.get? i = some t)
    (pc : TaskPC) (wg : Int) (reqs : List IndexRequest) (log : List LogLine)
    (hrun : s.proc = .running)
    (hle : pc.pending ≤ t.pc.pending)
    (hwg : wg + t.pc.pending = s.wg + pc.pending)
    (hlog : log.length + t.pc.lines = s.log.length + pc.lines)
    (hreq : (reqs ++ Task.submitted cd t).Perm
      (s.requests ++ Task.submitted cd { t with pc := pc }))
    (hform : ∀ r ∈ reqs, ∃ a ∈ articles, ∃ buf, cd.marshal a = .ok buf ∧ r = indexRequest a buf) :
    Inv cd articles
      { s with tasks := s.tasks.set i { t with pc := pc }, wg := wg, requests := reqs,
               log := log } := by
  have hsum := sum_map_set (fun t : Task => t.pc.pending) s.tasks i t { t with pc := pc } ht
  have hlin := sum_map_set (fun t : Task => t.pc.lines) s.tasks i t { t with pc := pc } ht
  have hw := h.wg
  have hl := h.log
  constructor
  · simp only [List.length_set]
    rw [map_set_same (fun t : Task => t.article) s.tasks i t { t with pc := pc } ht rfl]
    exact h.arts
  · simpa using h.len
  · simp only at hsum ⊢
    omega
  · intro hr
    obtain ⟨h1, h2⟩ := h.ret hr
    refine ⟨by simpa using h1, ?_⟩
    have := pending_le_sum s.tasks i t ht
    simp only at hsum ⊢
    omega
  · simp only at hlin ⊢
    omega
  · intro _
    have h1 := flatMap_set_perm (Task.submitted cd) s.tasks i t { t with pc := pc } ht
    have h2 := (h.reqs hrun).append_right (Task.submitted cd { t with pc := pc })
    exact (List.perm_append_right_iff _).mp (hreq.trans (h2.trans h1.symm))
  · exact hform

theorem stepTask_inv {cd : Codec} {es : Engine} {articles : List Article} {s s' : State}
    {i : Nat} (h : Inv cd articles s) (hrun : s.proc = .running)
    (hs : stepTask cd es s i = some s') : Inv cd articles s' := by
  unfold stepTask at hs
  split at hs
  · simp at hs
  · rename_i t ht
    have hart := get?_articles_of_tasks h ht
    split at hs
    · -- spawned
      rename_i hpc
      split at hs
      · simp only [Option.some.injEq] at hs; subst hs
        exact Inv_dead h _ _ (by simp) h.form
      · rename_i buf hbuf
        have hform : ∀ r ∈ s.requests ++ [indexRequest t.article buf], ∃ a ∈ articles, ∃ buf,
            cd.marshal a = .ok buf ∧ r = indexRequest a buf := by
          intro r hr
          rcases List.mem_append.mp hr with hr | hr
          · exact h.form r hr
          · simp only [List.mem_singleton] at hr
            exact ⟨t.article, hart, buf, hbuf, hr⟩
        dsimp only at hs
        split at hs
        · simp only [Option.some.injEq] at hs; subst hs
          exact Inv_dead h _ _ (by simp) hform
        · rename_i res hres
          simp only [Option.some.injEq] at hs; subst hs
          refine Inv_update h ht (.responded res) s.wg _ s.log hrun ?_ ?_ ?_ ?_ hform
          · simp [hpc, TaskPC.pending]
          · simp [hpc, TaskPC.pending]
          · simp [hpc, TaskPC.lines]
          · simp [Task.submitted, hpc, requestOf, hbuf]
    · -- responded
      rename_i res hpc
      split at hs
      · simp only [Option.some.injEq] at hs; subst hs
        refine Inv_update h ht .logged s.wg s.requests _ hrun ?_ ?_ ?_ ?_ h.form
        · simp [hpc, TaskPC.pending]
        · simp [hpc, TaskPC.pending]
        · simp [hpc, TaskPC.lines]
        · simp [Task.submitted, hpc]
      · simp only [Option.some.injEq] at hs; subst hs
        refine Inv_update h ht (.panicking _) s.wg s.requests s.log hrun ?_ ?_ ?_ ?_ h.form
        · simp [hpc, TaskPC.pending]
        · simp [hpc, TaskPC.pending]
        · simp [hpc, TaskPC.lines]
        · simp [Task.submitted, hpc]
    · -- logged
      rename_i hpc
      simp only [Option.some.injEq] at hs; subst hs
      unfold wgDone
      split
      · exact Inv_dead h _ _ (by simp) h.form
      · refine Inv_update h ht .done (s.wg - 1) s.requests s.log hrun ?_ ?_ ?_ ?_ h.form
        · simp [hpc, TaskPC.pending]
        · simp [hpc, TaskPC.pending]
        · simp [hpc, TaskPC.lines]
        · simp [Task.submitted, hpc]
    · -- panicking
      rename_i msg hpc
      simp only [Option.some.injEq] at hs; subst hs
      unfold wgDone
      split
      · exact Inv_dead h _ _ (by simp) h.form
      · refine Inv_update h ht (.unwound msg) (s.wg - 1) s.requests s.log hrun ?_ ?_ ?_ ?_ h.form
        · simp [hpc, TaskPC.pending]
        · simp [hpc, TaskPC.pending]
        · simp [hpc, TaskPC.lines]
        · simp [Task.submitted, hpc]
    · -- unwound
      simp only [Option.some.injEq] at hs; subst hs
      exact Inv_dead h _ _ (by simp) h.form
    · simp at hs

theorem step_inv {cd : Codec} {es : Engine} {articles : List Article} {s s' : State}
    {a : Actor} (h : Inv cd articles s) (hs : step cd es articles s a = some s') :
    Inv cd articles s' := by
  unfold step at hs
  split at hs
  · rename_i hrun
    cases a with
    | main => exact stepMain_inv h hs
    | task i => exact stepTask_inv h hrun hs
  · simp at hs

theorem handleResponse_acceptable {cd : Codec} {res : Response} (a : Article)
    (h : cd.acceptable res) :
    ∃ line, handleResponse cd a res = .logged line
      ∧ (line.fromDecodeBranch = false → res.IsError = true) := by
  unfold handleResponse
  by_cases he : res.IsError = true
  · simp [he]
  · simp only [he, Bool.false_eq_true, if_false]
    have hw : cd.wellFormed res := h.resolve_left he
    cases hd : cd.decode res.Body with
    | error e => exact ⟨_, rfl, by simp [LogLine.fromDecodeBranch]⟩
    | ok r =>
      obtain ⟨x, hx⟩ := hw r hd
      simp only [hx]
      exact ⟨_, rfl, by simp [LogLine.fromDecodeBranch]⟩

theorem Alive_init (ok : Response → Prop) : Alive ok State.init := by
  constructor <;> simp [State.init]

theorem Alive_update {ok : Response → Prop} {s : State} (h : Alive ok s) {i : Nat} {t : Task}
    (pc : TaskPC) (wg : Int) (reqs : List IndexRequest) (log : List LogLine)
    (hpc : pc.fine ok)
    (hlog : ∀ l ∈ log, l.fromDecodeBranch = false → ∃ res, ok res ∧ res.IsError = true) :
    Alive ok { s with tasks := s.tasks.set i { t with pc := pc }, wg := wg, requests := reqs,
                      log := log } := by
  refine ⟨h.running, ?_, hlog⟩
  intro t' ht'
  rcases List.mem_or_eq_of_mem_set ht' with hm | he
  · exact h.pcs t' hm
  · subst he; exact hpc

theorem stepMain_alive {ok : Response → Prop} {articles : List Article} {s s' : State}
    (h : Alive ok s) (hs : stepMain articles s = some s') : Alive ok s' := by
  unfold stepMain at hs
  split at hs
  · simp at hs
  · split at hs
    · simp only [Option.some.injEq] at hs; subst hs
      refine ⟨h.running, ?_, h.lines⟩
      intro t ht
      rcases List.mem_append.mp ht with hm | hm
      · exact h.pcs t hm
      · simp only [List.mem_singleton] at hm
        subst hm; trivial
    · split at hs
      · simp only [Option.some.injEq] at hs; subst hs
        exact ⟨h.running, h.pcs, h.lines⟩
      · simp at hs

theorem wgDone_eq {cd : Codec} {articles : List Article} {s : State} (h : Inv cd articles s)
    {i : Nat} {t : Task} (ht : s.tasks.get? i = some t) (hp : t.pc.pending = 1) (pc : TaskPC) :
    wgDone s i t pc = { s with wg := s.wg - 1, tasks := s.tasks.set i { t with pc := pc } } := by
  have := pending_le_sum s.tasks i t ht
  have hw := h.wg
  unfold wgDone
  rw [if_neg (by omega)]

theorem stepTask_alive {cd : Codec} {es : Engine} {ok : Response → Prop}
    {articles : List Article} {s s' : State} {i : Nat}
    (hok : ∀ res, ok res → cd.acceptable res) (henc : cd.encodes articles)
    (hans : es.answers ok) (hinv : Inv cd articles s) (h : Alive ok s)
    (hs : stepTask cd es s i = some s') : Alive ok s' := by
  unfold stepTask at hs
  split at hs
  · simp at hs
  · rename_i t ht
    have hart := get?_articles_of_tasks hinv ht
    have hfine := h.pcs t (List.get?_mem ht)
    split at hs
    · obtain ⟨buf, hbuf⟩ := henc t.article hart
      simp only [hbuf] at hs
      obtain ⟨res, hres, hokres⟩ := hans s.requests (indexRequest t.article buf)
      simp only [hres, Option.some.injEq] at hs; subst hs
      exact Alive_update h _ _ _ _ hokres h.lines
    · rename_i res hpc
      rw [hpc] at hfine
      obtain ⟨line, hline, hbranch⟩ := handleResponse_acceptable t.article (hok res hfine)
      simp only [hline, Option.some.injEq] at hs; subst hs
      refine Alive_update h _ _ _ _ trivial ?_
      intro l hl hb
      rcases List.mem_append.mp hl with hm | hm
      · exact h.lines l hm hb
      · simp only [List.mem_singleton] at hm
        subst hm
        exact ⟨res, hfine, hbranch hb⟩
    · rename_i hpc
      simp only [Option.some.injEq] at hs; subst hs
      rw [wgDone_eq hinv ht (by simp [hpc, TaskPC.pending])]
      exact Alive_update h _ _ _ _ trivial h.lines
    · rename_i msg hpc
      rw [hpc] at hfine; exact absurd hfine (by simp [TaskPC.fine])
    · rename_i msg hpc
      rw [hpc] at hfine; exact absurd hfine (by simp [TaskPC.fine])
    · simp at hs

theorem step_alive {cd : Codec} {es : Engine} {ok : Response → Prop}
    {articles : List Article} {s s' : State} {a : Actor}
    (hok : ∀ res, ok res → cd.acceptable res) (henc : cd.encodes articles)
    (hans : es.answers ok) (hinv : Inv cd articles s) (h : Alive ok s)
    (hs : step cd es articles s a = some s') : Alive ok s' := by
  unfold step at hs
  split at hs
  · cases a with
    | main => exact stepMain_alive h hs
    | task i => exact stepTask_alive hok henc hans hinv h hs
  · simp at hs

theorem step_running {cd : Codec} {es : Engine} {articles : List Article} {s s' : State}
    {a : Actor} (h : step cd es articles s a = some s') : s.proc = .running := by
  unfold step at h
  split at h
  · assumption
  · simp at h

theorem step_task {cd : Codec} {es : Engine} {articles : List Article} {s s' : State}
    {i : Nat} (h : step cd es articles s (.task i) = some s') :
    stepTask cd es s i = some s' := by
  have hr := step_running h
  unfold step at h
  rw [hr] at h
  exact h

theorem step_main {cd : Codec} {es : Engine} {articles : List Article} {s s' : State}
    (h : step cd es articles s .main = some s') : stepMain articles s = some s' := by
  have hr := step_running h
  unfold step at h
  rw [hr] at h
  exact h

theorem next_some_step {cd : Codec} {es : Engine} {articles : List Article} {s s' : State}
    {c : Nat} (h : next cd es articles s c = some s') :
    ∃ a, step cd es articles s a = some s' := by
  unfold next at h
  obtain ⟨a, _, ha⟩ := Option.bind_eq_some.mp h
  exact ⟨a, ha⟩

theorem enabled_ne_nil {cd : Codec} {es : Engine} {articles : List Article} {s s' : State}
    {a : Actor} (h : step cd es articles s a = some s') : enabled cd es articles s ≠ [] := by
  have hmem : a ∈ enabled cd es articles s := by
    unfold enabled
    refine List.mem_filter.mpr ⟨?_, by simp [h]⟩
    cases a with
    | main => simp
    | task i =>
      have hi : i < s.tasks.length := by
        by_contra hc
        have hnone : s.tasks.get? i = none := by
          rw [List.get?_eq_getElem?]; exact List.getElem?_eq_none (by omega)
        have h2 := step_task h
        unfold stepTask at h2
        rw [hnone] at h2
        simp at h2
      simp [hi]
  exact List.ne_nil_of_mem hmem

theorem next_eq_none {cd : Codec} {es : Engine} {articles : List Article} {s : State}
    {c : Nat} (h : next cd es articles s c = none) : enabled cd es articles s = [] := by
  by_contra hne
  have hpos : 0 < (enabled cd es articles s).length := List.length_pos.mpr hne
  have hlt : c % (enabled cd es articles s).length < (enabled cd es articles s).length :=
    Nat.mod_lt _ hpos
  unfold next at h
  simp only [List.get?_eq_getElem?, List.getElem?_eq_getElem hlt, Option.some_bind] at h
  have hmem := List.getElem_mem hlt
  unfold enabled at hmem
  have := (List.mem_filter.mp hmem).2
  unfold enabled at h
  rw [h] at this
  simp at this

theorem exec_inv {cd : Codec} {es : Engine} {articles : List Article} :
    ∀ (choices : List Nat) (s : State), Inv cd articles s →
      Inv cd articles (exec cd es articles s choices)
  | [], _, h => h
  | c :: cs, s, h => by
    unfold exec
    split
    · exact h
    · rename_i s' hs'
      obtain ⟨a, ha⟩ := next_some_step hs'
      exact exec_inv cs s' (step_inv h ha)

theorem exec_alive {cd : Codec} {es : Engine} {ok : Response → Prop} {articles : List Article}
    (hok : ∀ res, ok res → cd.acceptable res) (henc : cd.encodes articles)
    (hans : es.answers ok) :
    ∀ (choices : List Nat) (s : State), Inv cd articles s → Alive ok s →
      Alive ok (exec cd es articles s choices)
  | [], _, _, h => h
  | c :: cs, s, hinv, h => by
    unfold exec
    split
    · exact h
    · rename_i s' hs'
      obtain ⟨a, ha⟩ := next_some_step hs'
      exact exec_alive hok henc hans cs s' (step_inv hinv ha) (step_alive hok henc hans hinv h ha)

theorem weight_le_sum (f : Task → Nat) (l : List Task) (i : Nat) (t : Task)
    (ht : l.get? i = some t) : f t ≤ (l.map f).sum := by
  have hmem : f t ∈ l.map f := List.mem_map.mpr ⟨t, List.get?_mem ht, rfl⟩
  exact List.single_le_sum (fun _ _ => Nat.zero_le _) _ hmem

theorem stepsLeft_running {articles : List Article} {s : State} (h : s.proc = .running) :
    s.stepsLeft articles
      = (if s.returned then 0 else 1 + 5 * (articles.length - s.tasks.length))
        + (s.tasks.map (fun t => t.pc.stepsLeft)).sum := by
  unfold State.stepsLeft
  rw [h]

theorem stepsLeft_dead {articles : List Article} {s : State} (h : s.proc ≠ .running) :
    s.stepsLeft articles = 0 := by
  unfold State.stepsLeft
  split
  · rename_i hr; exact absurd hr h
  · rfl

/-- Moving one goroutine to a program point with fewer steps left shortens
what is left of the run. -/
theorem stepsLeft_update {articles : List Article} {s : State} (hrun : s.proc = .running)
    {i : Nat} {t : Task} (ht : s.tasks.get? i = some t) (pc : TaskPC) (wg : Int)
    (reqs : List IndexRequest) (log : List LogLine) (hlt : pc.stepsLeft < t.pc.stepsLeft) :
    State.stepsLeft articles
      { s with tasks := s.tasks.set i { t with pc := pc }, wg := wg, requests := reqs, log := log }
      < s.stepsLeft articles := by
  have hsum := sum_map_set (fun t : Task => t.pc.stepsLeft) s.tasks i t { t with pc := pc } ht
  rw [stepsLeft_running hrun, stepsLeft_running (by exact hrun)]
  simp only [List.length_set] at hsum ⊢
  omega

theorem stepsLeft_kill {articles : List Article} {s : State} (hrun : s.proc = .running)
    {i : Nat} {t : Task} (ht : s.tasks.get? i = some t) (hpos : 0 < t.pc.stepsLeft)
    (reqs : List IndexRequest) (proc : Process) (hproc : proc ≠ .running) :
    State.stepsLeft articles { s with requests := reqs, proc := proc } < s.stepsLeft articles := by
  have := weight_le_sum (fun t : Task => t.pc.stepsLeft) s.tasks i t ht
  rw [stepsLeft_dead (by exact hproc), stepsLeft_running hrun]
  simp only at this
  omega

theorem step_decreases {cd : Codec} {es : Engine} {articles : List Article} {s s' : State}
    {a : Actor} (hs : step cd es articles s a = some s') :
    s'.stepsLeft articles < s.stepsLeft articles := by
  have hrun := step_running hs
  cases a with
  | main =>
    have h := step_main hs
    unfold stepMain at h
    split at h
    · simp at h
    · rename_i hret
      split at h
      · rename_i article hart
        simp only [Option.some.injEq] at h; subst h
        have hlt : s.tasks.length < articles.length := by
          rw [List.get?_eq_getElem?] at hart
          by_contra hc
          rw [List.getElem?_eq_none (by omega)] at hart
          simp at hart
        rw [stepsLeft_running hrun, stepsLeft_running (by exact hrun)]
        simp only [hret, List.length_append, List.length_singleton, List.map_append,
          List.sum_append, List.map_cons, List.map_nil, List.sum_cons, List.sum_nil,
          TaskPC.stepsLeft]
        simp
        omega
      · split at h
        · simp only [Option.some.injEq] at h; subst h
          rw [stepsLeft_running hrun, stepsLeft_running (by exact hrun)]
          simp [hret]
        · simp at h
  | task i =>
    have h := step_task hs
    unfold stepTask at h
    split at h
    · simp at h
    · rename_i t ht
      split at h
      · rename_i hpc
        split at h
        · simp only [Option.some.injEq] at h; subst h
          exact stepsLeft_kill hrun ht (by simp [hpc, TaskPC.stepsLeft]) _ _ (by simp)
        · dsimp only at h
          split at h
          · simp only [Option.some.injEq] at h; subst h
            exact stepsLeft_kill hrun ht (by simp [hpc, TaskPC.stepsLeft]) _ _ (by simp)
          · simp only [Option.some.injEq] at h; subst h
            exact stepsLeft_update hrun ht _ _ _ _ (by simp [hpc, TaskPC.stepsLeft])
      · rename_i res hpc
        split at h
        · simp only [Option.some.injEq] at h; subst h
          exact stepsLeft_update hrun ht _ _ _ _ (by simp [hpc, TaskPC.stepsLeft])
        · simp only [Option.some.injEq] at h; subst h
          exact stepsLeft_update hrun ht _ _ _ _ (by simp [hpc, TaskPC.stepsLeft])
      · rename_i hpc
        simp only [Option.some.injEq] at h; subst h
        unfold wgDone
        split
        · exact stepsLeft_kill hrun ht (by simp [hpc, TaskPC.stepsLeft]) _ _ (by simp)
        · exact stepsLeft_update hrun ht _ _ _ _ (by simp [hpc, TaskPC.stepsLeft])
      · rename_i msg hpc
        simp only [Option.some.injEq] at h; subst h
        unfold wgDone
        split
        · exact stepsLeft_kill hrun ht (by simp [hpc, TaskPC.stepsLeft]) _ _ (by simp)
        · exact stepsLeft_update hrun ht _ _ _ _ (by simp [hpc, TaskPC.stepsLeft])
      · rename_i msg hpc
        simp only [Option.some.injEq] at h; subst h
        exact stepsLeft_kill hrun ht (by simp [hpc, TaskPC.stepsLeft]) _ _ (by simp)
      · simp at h

/-- A schedule at least as long as the steps left runs the call to a state
where no actor can move. -/
theorem exec_terminal {cd : Codec} {es : Engine} {articles : List Article} :
    ∀ (choices : List Nat) (s : State), s.stepsLeft articles ≤ choices.length →
      enabled cd es articles (exec cd es articles s choices) = []
  | [], s, h => by
    unfold exec
    by_contra hne
    obtain ⟨a, ha⟩ := List.exists_mem_of_ne_nil _ hne
    unfold enabled at ha
    have hsome := (List.mem_filter.mp ha).2
    obtain ⟨s', hs'⟩ := Option.isSome_iff_exists.mp hsome
    have := step_decreases hs'
    simp only [List.length_nil] at h
    omega
  | c :: cs, s, h => by
    unfold exec
    split
    · rename_i hnone; exact next_eq_none hnone
    · rename_i s' hs'
      obtain ⟨a, ha⟩ := next_some_step hs'
      have := step_decreases ha
      simp only [List.length_cons] at h
      exact exec_terminal cs s' (by omega)

theorem stepsLeft_init (articles : List Article) :
    State.init.stepsLeft articles = 5 * articles.length + 1 := by
  simp [State.stepsLeft, State.init]; omega

theorem stepTask_of_pending (cd : Codec) (es : Engine) {s : State} {i : Nat} {t : Task}
    (ht : s.tasks.get? i = some t) (hp : t.pc.pending = 1) :
    ∃ s', stepTask cd es s i = some s' := by
  unfold stepTask
  rw [ht]
  dsimp only
  cases hpc : t.pc with
  | spawned =>
    dsimp only
    cases cd.marshal t.article with
    | error e => exact ⟨_, rfl⟩
    | ok buf =>
      dsimp only
      cases es.Index s.requests (indexRequest t.article buf) with
      | error e => exact ⟨_, rfl⟩
      | ok res => exact ⟨_, rfl⟩
  | responded res =>
    dsimp only
    cases handleResponse cd t.article res with
    | logged line => exact ⟨_, rfl⟩
    | panicked msg => exact ⟨_, rfl⟩
  | logged => exact ⟨_, rfl⟩
  | panicking msg => exact ⟨_, rfl⟩
  | done => rw [hpc] at hp; simp [TaskPC.pending] at hp
  | unwound msg => rw [hpc] at hp; simp [TaskPC.pending] at hp

theorem step_of_running {cd : Codec} {es : Engine} {articles : List Article} {s : State}
    (hrun : s.proc = .running) (a : Actor) :
    step cd es articles s a
      = match a with
        | .main => stepMain articles s
        | .task i => stepTask cd es s i := by
  unfold step
  rw [hrun]

/-- While the process lives and `indexArticle` has not returned, some actor
can take a step. -/
theorem returned_of_terminal {cd : Codec} {es : Engine} {articles : List Article} {s : State}
    (hinv : Inv cd articles s) (hrun : s.proc = .running)
    (hterm : enabled cd es articles s = []) : s.returned = true := by
  by_contra hret
  have hmain : stepMain articles s = none := by
    cases hm : stepMain articles s with
    | none => rfl
    | some s' =>
      exact absurd hterm
        (enabled_ne_nil (a := .main) (by rw [step_of_running hrun]; exact hm))
  have htask : ∀ i t, s.tasks.get? i = some t → t.pc.pending = 0 := by
    intro i t ht
    by_contra hp
    have hp1 : t.pc.pending = 1 := by
      cases hpc : t.pc <;> simp [hpc, TaskPC.pending] at hp ⊢
    obtain ⟨s', hs'⟩ := stepTask_of_pending cd es ht hp1
    exact absurd hterm
      (enabled_ne_nil (a := .task i) (by rw [step_of_running hrun]; exact hs'))
  have hzero : (s.tasks.map (fun t => t.pc.pending)).sum = 0 := by
    apply List.sum_eq_zero
    intro x hx
    obtain ⟨t, ht, rfl⟩ := List.mem_map.mp hx
    obtain ⟨i, hi⟩ := List.get?_of_mem ht
    exact htask i t hi
  have hwg : s.wg = 0 := by rw [hinv.wg, hzero]; rfl
  unfold stepMain at hmain
  simp only [hret, Bool.false_eq_true, if_false] at hmain
  split at hmain
  · simp at hmain
  · simp [hwg] at hmain

/-- After the return of `wg.Wait()` every goroutine has run its deferred
`wg.Done()`. -/
theorem finished_of_returned {cd : Codec} {articles : List Article} {s : State}
    (hinv : Inv cd articles s) (hret : s.returned = true) :
    s.tasks.length = articles.length
      ∧ ∀ t ∈ s.tasks, t.pc = .done ∨ ∃ msg, t.pc = .unwound msg := by
  obtain ⟨hlen, hwg⟩ := hinv.ret hret
  refine ⟨hlen, ?_⟩
  intro t ht
  obtain ⟨i, hi⟩ := List.get?_of_mem ht
  have hle := pending_le_sum s.tasks i t hi
  have hw := hinv.wg
  have h0 : t.pc.pending = 0 := by omega
  cases hpc : t.pc <;> simp [hpc, TaskPC.pending] at h0 ⊢

theorem sum_map_one (f : Task → Nat) :
    ∀ l : List Task, (∀ t ∈ l, f t = 1) → (l.map f).sum = l.length
  | [], _ => rfl
  | x :: xs, h => by
    have h1 := h x (List.mem_cons_self _ _)
    have h2 := sum_map_one f xs (fun t ht => h t (List.mem_cons_of_mem _ ht))
    simp only [List.map_cons, List.sum_cons, List.length_cons, h1, h2]
    omega

theorem flatMap_submitted (cd : Codec) :
    ∀ l : List Task, (∀ t ∈ l, t.pc = .done) →
      l.flatMap (Task.submitted cd) = (l.map (fun t => t.article)).flatMap (requestOf cd)
  | [], _ => rfl
  | x :: xs, h => by
    have h1 := h x (List.mem_cons_self _ _)
    have h2 := flatMap_submitted cd xs (fun t ht => h t (List.mem_cons_of_mem _ ht))
    simp only [List.flatMap_cons, List.map_cons, h2, Task.submitted, h1]

theorem flatMap_requestOf (cd : Codec) (body : Article → String) :
    ∀ l : List Article, (∀ a ∈ l, cd.marshal a = .ok (body a)) →
      l.flatMap (requestOf cd) = l.map (fun a => indexRequest a (body a))
  | [], _ => rfl
  | x :: xs, h => by
    have h1 := h x (List.mem_cons_self _ _)
    have h2 := flatMap_requestOf cd body xs (fun t ht => h t (List.mem_cons_of_mem _ ht))
    simp only [List.flatMap_cons, List.map_cons, h2, requestOf, h1, List.singleton_append]

/-- What a run without abort has reached once its schedule is long enough. -/
theorem complete_run {cd : Codec} {es : Engine} {ok : Response → Prop} {articles : List Article}
    (hok : ∀ res, ok res → cd.acceptable res) (henc : cd.encodes articles)
    (hans : es.answers ok) (schedule : List Nat)
    (hlen : 5 * articles.length + 1 ≤ schedule.length) :
    let s := indexArticle cd es articles schedule
    s.returned = true ∧ s.proc = .running
      ∧ s.tasks.length = articles.length
      ∧ (∀ t ∈ s.tasks, t.pc = .done)
      ∧ s.log.length = articles.length
      ∧ s.requests.Perm (articles.flatMap (requestOf cd)) := by
  intro s
  have hinv : Inv cd articles s := exec_inv schedule State.init (Inv_init cd articles)
  have halive : Alive ok s :=
    exec_alive hok henc hans schedule State.init (Inv_init cd articles) (Alive_init ok)
  have hterm : enabled cd es articles s = [] :=
    exec_terminal schedule State.init (by rw [stepsLeft_init]; exact hlen)
  have hret := returned_of_terminal hinv halive.running hterm
  obtain ⟨hl, hfin⟩ := finished_of_returned hinv hret
  have hdone : ∀ t ∈ s.tasks, t.pc = .done := by
    intro t ht
    rcases hfin t ht with h | ⟨msg, h⟩
    · exact h
    · have := halive.pcs t ht
      rw [h] at this
      exact absurd this (by simp [TaskPC.fine])
  refine ⟨hret, halive.running, hl, hdone, ?_, ?_⟩
  · rw [hinv.log, sum_map_one _ _ (fun t ht => by rw [hdone t ht]; rfl), hl]
  · have h1 := hinv.reqs halive.running
    rw [flatMap_submitted cd _ hdone, hinv.arts, hl, List.take_length] at h1
    exact h1

/-! ## Sample generator -/

/-- Once the counter is past `count`, the loop leaves the collection alone. -/
theorem generateLoop_exit (now : Clock) (fuel : Nat) (i : Int) (ticks : Nat)
    (articles : List Article) (h : count + 1 ≤ i) :
    generateLoop now fuel i ticks articles = articles := by
  cases fuel with
  | zero => rfl
  | succ n => simp [generateLoop, not_lt.mpr h]

/-- C1: for every initial collection `c`, `generateCollection` leaves `c` in
front, unchanged, and appends exactly the 10 articles of iterations 1..10, whose
identifiers are 1, 2, ..., 10 in that order; the loop ends by its own guard (more
fuel changes nothing); from the empty collection the result has length 10 and
pairwise distinct identifiers. -/
theorem generateCollection_appends_ten (now : Clock) (c : List Article) :
    (generateCollection now c).articles
        = c ++ (List.range 10).map (fun (k : Nat) => newArticle ((k : Int) + 1) (now k))
      ∧ (∀ fuel, 10 ≤ fuel → generateLoop now fuel 1 0 c = (generateCollection now c).articles)
      ∧ ((generateCollection now c).articles.drop c.length).map (fun a => a.ID)
          = [1, 2, 3, 4, 5, 6, 7, 8, 9, 10]
      ∧ (generateCollection now c).articles.take c.length = c
      ∧ (generateCollection now c).articles.length = c.length + 10
      ∧ (generateCollection now []).articles.length = 10
      ∧ ((generateCollection now []).articles.map (fun a => a.ID)).Nodup := by
  have hfresh : (generateCollection now c).articles
        = c ++ (List.range 10).map (fun (k : Nat) => newArticle ((k : Int) + 1) (now k)) := by
    simp [generateCollection, generateLoop, count, List.range, List.range.loop]
  refine ⟨hfresh, ?_, ?_, ?_, ?_, ?_, ?_⟩
  · intro fuel hf
    obtain ⟨k, rfl⟩ : ∃ k, fuel = k + 10 := ⟨fuel - 10, by omega⟩
    simp [generateCollection, generateLoop, count, generateLoop_exit]
  · rw [hfresh]; simp [List.range, List.range.loop, newArticle]
  · rw [hfresh]; simp
  · rw [hfresh]; simp
  · rfl
  · have h : (generateCollection now []).articles.map (fun a => a.ID)
        = [1, 2, 3, 4, 5, 6, 7, 8, 9, 10] := rfl
    rw [h]; decide

/-- C1, at a concrete input: a one-article collection grows to eleven. -/
theorem generateCollection_appends_ten_witness :
    (10 ≤ 12 → generateLoop frozenClock 12 1 0 [newArticle 7 ⟨0⟩]
        = (generateCollection frozenClock [newArticle 7 ⟨0⟩]).articles)
      ∧ (generateCollection frozenClock [newArticle 7 ⟨0⟩]).articles.length = 11 :=
  ⟨fun h => (generateCollection_appends_ten frozenClock [newArticle 7 ⟨0⟩]).2.1 12 h,
    (generateCollection_appends_ten frozenClock [newArticle 7 ⟨0⟩]).2.2.2.2.1⟩

/-- C2: whatever the clock, for every `i` from 1 to 10 the `i`-th generated
article has identifier `i`, title `Title i`, the three tags `TagZ-i`, `TagY-i`,
`TagW-i`, the three item tags `TagA-i`, `TagB-i`, `TagC-i` and the two
interactions `Interaction Ai`, `Interaction Bi`; the fifth one reads `Title 5`,
`TagZ-5`, ... literally. -/
theorem generated_article_fields (now : Clock) (i : Nat) (h1 : 1 ≤ i) (h10 : i ≤ 10) :
    (∃ a, (generateCollection now []).articles.get? (i - 1) = some a
      ∧ a.ID = i
      ∧ a.Title = "Title " ++ Itoa i
      ∧ a.Tags = [⟨"TagZ-" ++ Itoa i⟩, ⟨"TagY-" ++ Itoa i⟩, ⟨"TagW-" ++ Itoa i⟩]
      ∧ a.Items.Tags = [⟨"TagA-" ++ Itoa i⟩, ⟨"TagB-" ++ Itoa i⟩, ⟨"TagC-" ++ Itoa i⟩]
      ∧ a.Items.Interactions = ["Interaction A" ++ Itoa i, "Interaction B" ++ Itoa i])
    ∧ (∃ a, (generateCollection now []).articles.get? 4 = some a
      ∧ a.ID = 5
      ∧ a.Title = "Title 5"
      ∧ a.Tags = [⟨"TagZ-5"⟩, ⟨"TagY-5"⟩, ⟨"TagW-5"⟩]
      ∧ a.Items.Tags = [⟨"TagA-5"⟩, ⟨"TagB-5"⟩, ⟨"TagC-5"⟩]
      ∧ a.Items.Interactions = ["Interaction A5", "Interaction B5"]) := by
  constructor
  · interval_cases i <;> exact ⟨_, rfl, rfl, rfl, rfl, rfl, rfl⟩
  · exact ⟨_, rfl, rfl, rfl, rfl, rfl, rfl⟩

/-- C2, at the third article under the skewed clock. -/
theorem generated_article_fields_witness :
    1 ≤ 3 ∧ 3 ≤ 10
      ∧ ∃ a, (generateCollection skewClock []).articles.get? (3 - 1) = some a
        ∧ a.ID = (3 : Nat)
        ∧ a.Title = "Title " ++ Itoa (3 : Nat)
        ∧ a.Tags = [⟨"TagZ-" ++ Itoa (3 : Nat)⟩, ⟨"TagY-" ++ Itoa (3 : Nat)⟩,
            ⟨"TagW-" ++ Itoa (3 : Nat)⟩]
        ∧ a.Items.Tags = [⟨"TagA-" ++ Itoa (3 : Nat)⟩, ⟨"TagB-" ++ Itoa (3 : Nat)⟩,
            ⟨"TagC-" ++ Itoa (3 : Nat)⟩]
        ∧ a.Items.Interactions
            = ["Interaction A" ++ Itoa (3 : Nat), "Interaction B" ++ Itoa (3 : Nat)] :=
  ⟨by decide, by decide, (generated_article_fields skewClock 3 (by decide) (by decide)).1⟩

/-- Rounding to the second never reorders two readings. -/
theorem Round_mono (s t : Time) (h : s.unixNano ≤ t.unixNano) :
    (s.Round Second).unixNano ≤ (t.Round Second).unixNano := by
  simp only [Time.Round, Second]
  split_ifs <;> (try dsimp only) <;> omega

/-- C3 fails as stated: with one reading 0.4 s and the next 0.6 s after
23:59:59, on a clock that never runs backwards, article 2 is published one day
and one second after article 1, two calendar days later. -/
theorem published_not_one_day_apart :
    ∃ a b, (generateCollection skewClock []).articles.get? 0 = some a
      ∧ (generateCollection skewClock []).articles.get? 1 = some b
      ∧ a.ID = 1 ∧ b.ID = 2
      ∧ (∀ k, (skewClock k).unixNano ≤ (skewClock (k + 1)).unixNano)
      ∧ b.Published.unixNano - a.Published.unixNano = dayNanos + Second
      ∧ b.Published.unixNano ≠ a.Published.unixNano + dayNanos
      ∧ b.Published.calendarDay = a.Published.calendarDay + 2
      ∧ b.Published.calendarDay ≠ a.Published.calendarDay + 1 :=
  ⟨_, _, rfl, rfl, rfl, rfl,
    fun k => by cases k <;> simp [skewClock],
    by decide, by decide, by decide, by decide⟩

/-- C3, amended: for successive identifiers `i` and `i+1` the Published values
are the rounded readings of iterations `i` and `i+1` with `i` and `i+1` days
added, so they differ by one day plus the difference of the two rounded
readings; when the clock does not run backwards between the two iterations
article `i+1` is strictly later, by at least one day; when both readings round
to the same second it is later by exactly one day, on the next calendar day. -/
theorem published_successive (now : Clock) (i : Nat) (h1 : 1 ≤ i) (h10 : i < 10) :
    ∃ a b, (generateCollection now []).articles.get? (i - 1) = some a
      ∧ (generateCollection now []).articles.get? i = some b
      ∧ a.ID = i ∧ b.ID = i + 1
      ∧ a.Published = (((now (i - 1)).Round Second).UTC).AddDays i
      ∧ b.Published = (((now i).Round Second).UTC).AddDays (i + 1)
      ∧ b.Published.unixNano - a.Published.unixNano
          = dayNanos + (roundedNano (now i) - roundedNano (now (i - 1)))
      ∧ ((now (i - 1)).unixNano ≤ (now i).unixNano →
          a.Published.unixNano < b.Published.unixNano
            ∧ a.Published.unixNano + dayNanos ≤ b.Published.unixNano)
      ∧ (roundedNano (now i) = roundedNano (now (i - 1)) →
          b.Published.unixNano = a.Published.unixNano + dayNanos
            ∧ b.Published.calendarDay = a.Published.calendarDay + 1) := by
  have key : ∀ s t : Time, ∀ k : Int,
      (((t.Round Second).UTC).AddDays (k + 1)).unixNano
          - (((s.Round Second).UTC).AddDays k).unixNano
        = dayNanos + (roundedNano t - roundedNano s) := by
    intro s t k
    simp only [Time.AddDays, Time.UTC, roundedNano]
    ring
  have hday : (0 : Int) < dayNanos := by decide
  have fin : ∀ a b : Article, ∀ s t : Time, ∀ k : Int,
      a.Published = ((s.Round Second).UTC).AddDays k →
      b.Published = ((t.Round Second).UTC).AddDays (k + 1) →
      b.Published.unixNano - a.Published.unixNano = dayNanos + (roundedNano t - roundedNano s)
      ∧ (s.unixNano ≤ t.unixNano →
          a.Published.unixNano < b.Published.unixNano
            ∧ a.Published.unixNano + dayNanos ≤ b.Published.unixNano)
      ∧ (roundedNano t = roundedNano s →
          b.Published.unixNano = a.Published.unixNano + dayNanos
            ∧ b.Published.calendarDay = a.Published.calendarDay + 1) := by
    intro a b s t k ha hb
    have hk := key s t k
    rw [← ha, ← hb] at hk
    refine ⟨hk, ?_, ?_⟩
    · intro hst
      have := Round_mono s t hst
      simp only [roundedNano] at hk
      constructor <;> omega
    · intro heq
      have hb' : b.Published.unixNano = a.Published.unixNano + dayNanos := by omega
      refine ⟨hb', ?_⟩
      simp only [Time.calendarDay, hb']
      rw [Int.add_ediv_of_dvd_right (dvd_refl _), Int.ediv_self (ne_of_gt hday)]
  interval_cases i
  all_goals exact ⟨_, _, rfl, rfl, rfl, rfl, rfl, rfl, fin _ _ _ _ _ rfl rfl⟩

/-- C3 amended, at articles 4 and 5 under the frozen clock. -/
theorem published_successive_witness :
    1 ≤ 4 ∧ 4 < 10
      ∧ (frozenClock (4 - 1)).unixNano ≤ (frozenClock 4).unixNano
      ∧ roundedNano (frozenClock 4) = roundedNano (frozenClock (4 - 1))
      ∧ ∃ a b, (generateCollection frozenClock []).articles.get? (4 - 1) = some a
        ∧ (generateCollection frozenClock []).articles.get? 4 = some b
        ∧ a.Published.unixNano < b.Published.unixNano
        ∧ b.Published.unixNano = a.Published.unixNano + dayNanos
        ∧ b.Published.calendarDay = a.Published.calendarDay + 1 := by
  refine ⟨by decide, by decide, by decide, by decide, ?_⟩
  obtain ⟨a, b, ha, hb, _, _, _, _, _, hmono, hsame⟩ :=
    published_successive frozenClock 4 (by decide) (by decide)
  exact ⟨a, b, ha, hb, (hmono (by decide)).1, (hsame (by decide)).1, (hsame (by decide)).2⟩

/-! ## Index mapping and provisioner -/

set_option maxRecDepth 100000 in
/-- The mapping document always encodes, to `mappingBody`. -/
theorem jsonEncode_getMapping : jsonEncode getMapping = .ok mappingBody :=
  congrArg Except.ok (by decide : jsonMarshal getMapping ++ "\n" = mappingBody)

/-- C4, at the failing input: when the transport of the existence check fails,
`createIndice` has issued that one request and ends in the nil-pointer panic of
`res.StatusCode`, not in `log.Fatalf`; the run does not reach indexing. -/
theorem createIndice_exists_failure_panics :
    refusedEngine.Exists [indexName]
        = .error "dial tcp 127.0.0.1:9200: connect: connection refused"
    ∧ createIndice refusedEngine
        = ([Call.indicesExists ["testindex"]], Outcome.panicked nilDereference)
    ∧ (∀ format arg, (createIndice refusedEngine).2 ≠ Outcome.fatal format arg)
    ∧ (∀ now schedule,
        (main now plainCodec (.ok refusedEngine) schedule).outcome
            = Outcome.panicked nilDereference
          ∧ (main now plainCodec (.ok refusedEngine) schedule).indexing.isNone = true) := by
  refine ⟨rfl, by decide, ?_, ?_⟩
  · intro f a; simp [createIndice, refusedEngine]
  · intro now schedule; exact ⟨rfl, rfl⟩

/-- Whatever the transport error of the existence check, `createIndice` ends in
the nil-pointer panic after that one request. -/
theorem createIndice_exists_error (es : Engine) (e : String)
    (h : es.Exists [indexName] = .error e) :
    createIndice es = ([Call.indicesExists [indexName]], Outcome.panicked nilDereference) := by
  simp [createIndice, h]

/-- The part of C4 the code does keep: a transport failure of the create
request, and an error response to it, end in `log.Fatalf`, and a run whose
provisioning does not return never reaches indexing. -/
theorem createIndice_create_failure_fatal (es : Engine) (res : Response)
    (hex : es.Exists [indexName] = .ok res) (h404 : res.StatusCode = 404) :
    (∀ e, es.Create indexName mappingBody = .error e →
        (createIndice es).2 = .fatal "Cannot create index: %s" e)
    ∧ (∀ r, es.Create indexName mappingBody = .ok r → r.IsError = true →
        (createIndice es).2 = .fatal "Cannot create index: %s" r.String)
    ∧ (∀ now cd schedule, (createIndice es).2 ≠ .returned →
        (main now cd (.ok es) schedule).indexing.isNone = true) := by
  refine ⟨?_, ?_, ?_⟩
  · intro e he
    simp [createIndice, hex, h404, jsonEncode_getMapping, he]
  · intro r hr herr
    simp [createIndice, hex, h404, jsonEncode_getMapping, hr, herr]
  · intro now cd schedule hne
    unfold main configES
    dsimp only
    split
    · rename_i calls heq
      rw [heq] at hne
      exact absurd rfl hne
    · rfl

/-- C5: `createIndice` always starts with one existence query for `testindex`
and issues no other; a create request follows, once, for the same index and with
the encoded mapping as body, exactly when the existence response has status 404;
on any other status nothing more is sent and the function returns normally. -/
theorem createIndice_requests (es : Engine) :
    (createIndice es).1 = Call.indicesExists ["testindex"] ::
        (match es.Exists ["testindex"] with
          | .ok res =>
            if res.StatusCode = 404 then [Call.indicesCreate "testindex" mappingBody] else []
          | .error _ => [])
    ∧ jsonEncode getMapping = .ok mappingBody
    ∧ indexName = "testindex"
    ∧ (∀ res, es.Exists [indexName] = .ok res →
        ((∃ c ∈ (createIndice es).1, ∃ i b, c = Call.indicesCreate i b) ↔ res.StatusCode = 404)
        ∧ (res.StatusCode ≠ 404 →
            createIndice es = ([Call.indicesExists [indexName]], Outcome.returned))) := by
  have hname : indexName = "testindex" := rfl
  have henc := jsonEncode_getMapping
  refine ⟨?_, henc, hname, ?_⟩
  · simp only [createIndice, henc, ← hname]
    cases es.Exists [indexName] with
    | error e => rfl
    | ok res =>
      by_cases h : res.StatusCode = 404
      · simp only [h, if_true]
        cases es.Create indexName mappingBody with
        | error e => rfl
        | ok r => dsimp only; split <;> rfl
      · simp [h]
  · intro res hres
    simp only [createIndice, henc, hres]
    by_cases h : res.StatusCode = 404
    · simp only [h, if_true]
      cases es.Create indexName mappingBody with
      | error e => simp
      | ok r => dsimp only; split <;> simp
    · simp [h]

/-- C5, at an engine that already has the index (status 200) and at one that
does not (status 404). -/
theorem createIndice_requests_witness :
    rejectingEngine.Exists [indexName] = .ok ⟨200, "OK", ""⟩
      ∧ (200 : Int) ≠ 404
      ∧ createIndice rejectingEngine = ([Call.indicesExists [indexName]], Outcome.returned)
      ∧ freshEngine.Exists [indexName] = .ok ⟨404, "Not Found", ""⟩
      ∧ (∃ c ∈ (createIndice freshEngine).1, ∃ i b, c = Call.indicesCreate i b) :=
  ⟨rfl, by decide,
    ((createIndice_requests rejectingEngine).2.2.2 ⟨200, "OK", ""⟩ rfl).2 (by decide),
    rfl,
    ((createIndice_requests freshEngine).2.2.2 ⟨404, "Not Found", ""⟩ rfl).1.mpr rfl⟩

/-- C6: the document of `getMapping` has the keys `settings` and `mappings` and
no other; `settings` holds only `number_of_shards = 1`; `mappings` holds only
`properties`, with exactly `id` and `items`; `id` is `type: integer`; `items`
holds only `properties`, with exactly `interactions` and `tags`; `interactions`
is `enabled: false, type: nested`; `tags` is `type: nested, include_in_root:
true, properties: name: type: keyword`; no key occurs twice, and its JSON text
is the constant `mappingBody`. -/
theorem getMapping_shape :
    getMapping.keys = ["settings", "mappings"]
    ∧ (getMapping.path ["settings"]).map GoValue.keys = some ["number_of_shards"]
    ∧ (getMapping.path ["settings", "number_of_shards"]).map jsonMarshal = some "1"
    ∧ (getMapping.path ["mappings"]).map GoValue.keys = some ["properties"]
    ∧ (getMapping.path ["mappings", "properties"]).map GoValue.keys = some ["id", "items"]
    ∧ (getMapping.path ["mappings", "properties", "id"]).map GoValue.keys = some ["type"]
    ∧ (getMapping.path ["mappings", "properties", "id", "type"]).map jsonMarshal
        = some "\"integer\""
    ∧ (getMapping.path ["mappings", "properties", "items"]).map GoValue.keys
        = some ["properties"]
    ∧ (getMapping.path ["mappings", "properties", "items", "properties"]).map GoValue.keys
        = some ["interactions", "tags"]
    ∧ (getMapping.path ["mappings", "properties", "items", "properties",
        "interactions"]).map GoValue.keys = some ["enabled", "type"]
    ∧ (getMapping.path ["mappings", "properties", "items", "properties",
        "interactions", "enabled"]).map jsonMarshal = some "false"
    ∧ (getMapping.path ["mappings", "properties", "items", "properties",
        "interactions", "type"]).map jsonMarshal = some "\"nested\""
    ∧ (getMapping.path ["mappings", "properties", "items", "properties",
        "tags"]).map GoValue.keys = some ["type", "include_in_root", "properties"]
    ∧ (getMapping.path ["mappings", "properties", "items", "properties",
        "tags", "type"]).map jsonMarshal = some "\"nested\""
    ∧ (getMapping.path ["mappings", "properties", "items", "properties",
        "tags", "include_in_root"]).map jsonMarshal = some "true"
    ∧ (getMapping.path ["mappings", "properties", "items", "properties",
        "tags", "properties"]).map GoValue.keys = some ["name"]
    ∧ (getMapping.path ["mappings", "properties", "items", "properties",
        "tags", "properties", "name"]).map GoValue.keys = some ["type"]
    ∧ (getMapping.path ["mappings", "properties", "items", "properties",
        "tags", "properties", "name", "type"]).map jsonMarshal = some "\"keyword\""
    ∧ jsonMarshal getMapping ++ "\n" = mappingBody := by
  have hbody : jsonMarshal getMapping ++ "\n" = mappingBody :=
    Except.ok.inj jsonEncode_getMapping
  and_intros
  all_goals first | exact hbody | decide

/-! ## Concurrent indexer -/

/-- Every interleaving is a schedule: whichever actor can take a step, some
scheduler choice lets exactly that actor run. -/
theorem next_complete {cd : Codec} {es : Engine} {articles : List Article} {s s' : State}
    {a : Actor} (h : step cd es articles s a = some s') :
    ∃ c, next cd es articles s c = some s' := by
  have hmem : a ∈ enabled cd es articles s := by
    unfold enabled
    refine List.mem_filter.mpr ⟨?_, by simp [h]⟩
    cases a with
    | main => simp
    | task i =>
      have hi : i < s.tasks.length := by
        by_contra hc
        have hnone : s.tasks.get? i = none := by
          rw [List.get?_eq_getElem?]; exact List.getElem?_eq_none (by omega)
        have h2 := step_task h
        unfold stepTask at h2
        rw [hnone] at h2
        simp at h2
      simp [hi]
  obtain ⟨k, hk, hka⟩ := List.getElem_of_mem hmem
  refine ⟨k, ?_⟩
  unfold next
  simp only [Nat.mod_eq_of_lt hk, List.get?_eq_getElem?, List.getElem?_eq_getElem hk, hka,
    Option.some_bind]
  exact h

/-- C7: in every state of every run of `indexArticle`, the goroutines started
are one per article, in the order of the collection; every request handed to
the client was built for an article of the collection and has Index
`testindex` (the constant `indexName`), DocumentID the decimal form of the
article's ID, Refresh `true` and the article's encoding as body; while the
process lives the requests are exactly those of the goroutines past `req.Do`,
one each; an empty collection yields no request; and a run that is not aborted,
once complete, has issued exactly one request per article (N for N articles).
For the generated collection the identifiers are `1`, ..., `10`. -/
theorem indexArticle_requests (cd : Codec) (es : Engine) (articles : List Article)
    (schedule : List Nat) :
    ((indexArticle cd es articles schedule).tasks.map (fun t => t.article)
        = articles.take (indexArticle cd es articles schedule).tasks.length)
    ∧ (∀ r ∈ (indexArticle cd es articles schedule).requests,
        ∃ a ∈ articles, ∃ buf, cd.marshal a = .ok buf
          ∧ r = { Index := "testindex", DocumentID := Itoa a.ID, Body := buf, Refresh := "true" }
          ∧ r.Index = indexName)
    ∧ ((indexArticle cd es articles schedule).proc = .running →
        (indexArticle cd es articles schedule).requests.Perm
          ((indexArticle cd es articles schedule).tasks.flatMap (Task.submitted cd)))
    ∧ (articles = [] → (indexArticle cd es articles schedule).requests = [])
    ∧ (∀ body : Article → String, (∀ a ∈ articles, cd.marshal a = .ok (body a)) →
        es.answers cd.acceptable → 5 * articles.length + 1 ≤ schedule.length →
        (indexArticle cd es articles schedule).requests.Perm
            (articles.map (fun a =>
              { Index := "testindex", DocumentID := Itoa a.ID, Body := body a,
                Refresh := "true" }))
          ∧ (indexArticle cd es articles schedule).requests.length = articles.length)
    ∧ (∀ now : Clock, (generateCollection now []).articles.map (fun a => Itoa a.ID)
        = ["1", "2", "3", "4", "5", "6", "7", "8", "9", "10"]) := by
  have hinv : Inv cd articles (indexArticle cd es articles schedule) :=
    exec_inv schedule State.init (Inv_init cd articles)
  refine ⟨hinv.arts, ?_, hinv.reqs, ?_, ?_, fun now => rfl⟩
  · intro r hr
    obtain ⟨a, ha, buf, hbuf, hreq⟩ := hinv.form r hr
    exact ⟨a, ha, buf, hbuf, hreq, by rw [hreq]; rfl⟩
  · intro hnil
    apply List.eq_nil_iff_forall_not_mem.mpr
    intro r hr
    obtain ⟨a, ha, _⟩ := hinv.form r hr
    rw [hnil] at ha
    simp at ha
  · intro body hbody hans hlen
    have henc : cd.encodes articles := fun a ha => ⟨body a, hbody a ha⟩
    obtain ⟨_, _, _, _, _, hperm⟩ :=
      complete_run (fun (_ : Response) (h : cd.acceptable _) => h) henc hans schedule hlen
    rw [flatMap_requestOf cd body articles hbody] at hperm
    exact ⟨hperm, by rw [hperm.length_eq, List.length_map]⟩

/-- C7, at the generated collection indexed into the accepting engine under
the schedule that always lets the first enabled actor run. -/
theorem indexArticle_requests_witness :
    (∀ a ∈ sampleArticles, plainCodec.marshal a = .ok ("article " ++ Itoa a.ID))
      ∧ freshEngine.answers plainCodec.acceptable
      ∧ 5 * sampleArticles.length + 1 ≤ (List.replicate 51 0).length
      ∧ (indexArticle plainCodec freshEngine sampleArticles (List.replicate 51 0)).requests.length
          = sampleArticles.length := by
  have h1 : ∀ a ∈ sampleArticles, plainCodec.marshal a = .ok ("article " ++ Itoa a.ID) :=
    fun _ _ => rfl
  have h2 : freshEngine.answers plainCodec.acceptable := fun _ _ =>
    ⟨createdResponse, rfl, Or.inr (fun r hr => ⟨1, by
      have : r = [("_index", .str "testindex"), ("_id", .str "1"), ("_version", .float64 1),
          ("result", .str "created")] := (Except.ok.inj hr).symm
      rw [this]; rfl⟩)⟩
  have h3 : 5 * sampleArticles.length + 1 ≤ (List.replicate 51 0).length := by decide
  exact ⟨h1, h2, h3,
    ((indexArticle_requests plainCodec freshEngine sampleArticles
      (List.replicate 51 0)).2.2.2.2.1 _ h1 h2 h3).2⟩

/-- The branch of `handleResponse` on `res.IsError()`. -/
theorem handleResponse_error (cd : Codec) (a : Article) (res : Response)
    (h : res.IsError = true) :
    handleResponse cd a res = .logged (.indexError res.Status a.ID) := by
  unfold handleResponse
  rw [if_pos h]

/-- A line of the decode branch, and a panic, come only from a response that is
not an error response. -/
theorem handleResponse_branch (cd : Codec) (a : Article) (res : Response) :
    (∀ line, handleResponse cd a res = .logged line →
        (line.fromDecodeBranch = true ↔ res.IsError = false))
    ∧ (∀ msg, handleResponse cd a res = .panicked msg → res.IsError = false) := by
  unfold handleResponse
  by_cases he : res.IsError = true
  · simp only [he, if_true]
    constructor
    · intro line hl
      cases hl
      simp [LogLine.fromDecodeBranch]
    · intro msg hm; cases hm
  · have hf : res.IsError = false := by simpa using he
    simp only [hf, Bool.false_eq_true, if_false]
    constructor
    · intro line hl
      split at hl
      · cases hl; simp [LogLine.fromDecodeBranch]
      · split at hl
        · cases hl; simp [LogLine.fromDecodeBranch]
        · cases hl
    · intro msg _; trivial

/-- C8 fails as stated: the server answers every indexing request with 201
Created and the JSON object `\x7b"result":"created"\x7d`, so no request meets a
transport error and none gets an error response, and every article encodes;
yet under the schedule that always lets the first enabled actor run, the first
goroutine panics on `r["_version"].(float64)`, the process crashes, and the run
is over with the request of article 1 submitted and those of the other nine
articles never sent. -/
theorem requests_lost_without_transport_error :
    (∀ hist req, bareEngine.Index hist req = .ok bareResponse)
      ∧ bareResponse.IsError = false
      ∧ bareResponse.Body = "\x7b\"result\":\"created\"\x7d"
      ∧ (∀ a ∈ sampleArticles, plainCodec.marshal a = .ok ("article " ++ Itoa a.ID))
      ∧ sampleArticles.map (fun a => a.ID) = [1, 2, 3, 4, 5, 6, 7, 8, 9, 10]
      ∧ (indexArticle plainCodec bareEngine sampleArticles (List.replicate 51 0)).proc
          = .crashed conversionPanic
      ∧ enabled plainCodec bareEngine sampleArticles
          (indexArticle plainCodec bareEngine sampleArticles (List.replicate 51 0)) = []
      ∧ (indexArticle plainCodec bareEngine sampleArticles (List.replicate 51 0)).requests.map
          (fun r => r.DocumentID) = ["1"]
      ∧ (indexArticle plainCodec bareEngine sampleArticles (List.replicate 51 0)).log.length
          = 0 :=
  ⟨fun _ _ => rfl, by decide, by decide, fun _ _ => rfl, by decide, by decide, by decide,
    by decide, by decide⟩

/-- C8, amended: for the goroutine of an article, a transport error of `req.Do`
ends the whole process through `log.Fatalf`, after which nothing runs; an error
response makes the goroutine log exactly one line, with the response status and
the article's ID, and changes nothing else: the process lives on and every
other goroutine stands where it stood; a line of the decode-and-log branch (or
its panic) arises only from a response that is not an error response.
Consequently, when every article encodes, no request meets a transport error,
and every answer is an error response or an acknowledgement whose body does not
decode or carries a numeric `_version` (in any mix), every complete run returns
with the process alive and with the request of every article submitted, one
each. -/
theorem indexArticle_task_outcomes (cd : Codec) (es : Engine) (articles : List Article) :
    (∀ (s : State) (i : Nat) (t : Task) (buf e : String),
        s.proc = .running → s.tasks.get? i = some t → t.pc = .spawned →
        cd.marshal t.article = .ok buf →
        es.Index s.requests (indexRequest t.article buf) = .error e →
        ∃ s', step cd es articles s (.task i) = some s'
          ∧ s'.proc = .exited "Error getting response: %s" e
          ∧ s'.log = s.log
          ∧ ∀ a, step cd es articles s' a = none)
    ∧ (∀ (s : State) (i : Nat) (t : Task) (res : Response),
        s.proc = .running → s.tasks.get? i = some t → t.pc = .responded res →
        res.IsError = true →
        step cd es articles s (.task i)
          = some { s with log := s.log ++ [.indexError res.Status t.article.ID],
                          tasks := s.tasks.set i { t with pc := .logged } })
    ∧ (∀ (a : Article) (res : Response),
        (∀ line, handleResponse cd a res = .logged line →
          (line.fromDecodeBranch = true ↔ res.IsError = false))
        ∧ (∀ msg, handleResponse cd a res = .panicked msg → res.IsError = false))
    ∧ (cd.encodes articles → es.answers cd.acceptable →
        ∀ schedule : List Nat, 5 * articles.length + 1 ≤ schedule.length →
          (indexArticle cd es articles schedule).returned = true
          ∧ (indexArticle cd es articles schedule).proc = .running
          ∧ (indexArticle cd es articles schedule).requests.Perm
              (articles.flatMap (requestOf cd))
          ∧ (indexArticle cd es articles schedule).requests.length = articles.length
          ∧ (indexArticle cd es articles schedule).log.length = articles.length) := by
  refine ⟨?_, ?_, handleResponse_branch cd, ?_⟩
  · intro s i t buf e hrun ht hpc hbuf herr
    refine ⟨{ s with requests := s.requests ++ [indexRequest t.article buf],
                     proc := .exited "Error getting response: %s" e }, ?_, rfl, rfl, ?_⟩
    · rw [step_of_running hrun]
      simp only [stepTask, ht, hpc, hbuf, herr]
    · intro a; rfl
  · intro s i t res hrun ht hpc herr
    rw [step_of_running hrun]
    simp only [stepTask, ht, hpc, handleResponse_error cd t.article res herr]
  · intro henc hans schedule hlen
    obtain ⟨hret, hrun, _, _, hlog, hperm⟩ :=
      complete_run (fun (_ : Response) (h : cd.acceptable _) => h) henc hans schedule hlen
    refine ⟨hret, hrun, hperm, ?_, hlog⟩
    have hl : (articles.flatMap (requestOf cd)).length = articles.length := by
      have : ∀ l : List Article, (∀ a ∈ l, ∃ buf, cd.marshal a = .ok buf) →
          (l.flatMap (requestOf cd)).length = l.length := by
        intro l
        induction l with
        | nil => intro _; rfl
        | cons x xs ih =>
          intro h
          obtain ⟨buf, hbuf⟩ := h x (List.mem_cons_self _ _)
          have := ih (fun a ha => h a (List.mem_cons_of_mem _ ha))
          simp only [List.flatMap_cons, List.length_append, List.length_cons, requestOf, hbuf,
            List.length_nil, this]
          omega
      exact this articles henc
    rw [hperm.length_eq, hl]

/-- C8 amended, at a refused connection, at a rejected document, and at the
generated collection indexed into an engine that rejects every document. -/
theorem indexArticle_task_outcomes_witness :
    (∃ s', step plainCodec refusedEngine sampleArticles spawnedState (.task 0) = some s'
        ∧ s'.proc = .exited "Error getting response: %s"
            "dial tcp 127.0.0.1:9200: connect: connection refused")
      ∧ step plainCodec rejectingEngine sampleArticles rejectedState (.task 1)
          = some { rejectedState with
              log := [.indexError "429 Too Many Requests" 2],
              tasks := [{ article := newArticle 1 ⟨0⟩, pc := .spawned },
                        { article := newArticle 2 ⟨0⟩, pc := .logged }] }
      ∧ plainCodec.encodes sampleArticles
      ∧ rejectingEngine.answers plainCodec.acceptable
      ∧ 5 * sampleArticles.length + 1 ≤ (List.replicate 51 0).length
      ∧ (indexArticle plainCodec rejectingEngine sampleArticles (List.replicate 51 0)).returned
          = true
      ∧ (indexArticle plainCodec rejectingEngine sampleArticles
          (List.replicate 51 0)).requests.length = sampleArticles.length := by
  have henc : plainCodec.encodes sampleArticles := fun a _ => ⟨_, rfl⟩
  have hans : rejectingEngine.answers plainCodec.acceptable := fun _ _ =>
    ⟨rejectedResponse, rfl, Or.inl (by decide)⟩
  have hlen : 5 * sampleArticles.length + 1 ≤ (List.replicate 51 0).length := by decide
  have h := indexArticle_task_outcomes plainCodec rejectingEngine sampleArticles
  have h0 := indexArticle_task_outcomes plainCodec refusedEngine sampleArticles
  obtain ⟨s', hs', hproc, _, _⟩ := h0.1 spawnedState 0 _ "article 1"
    "dial tcp 127.0.0.1:9200: connect: connection refused" rfl rfl rfl rfl rfl
  have h4 := h.2.2.2 henc hans (List.replicate 51 0) hlen
  exact ⟨⟨s', hs', hproc⟩,
    h.2.1 rejectedState 1 _ rejectedResponse rfl rfl rfl (by decide),
    henc, hans, hlen, h4.1, h4.2.2.2.1⟩

/-- C9: `indexArticle` returns only after every goroutine it started has run
its deferred `wg.Done()`: in every state of every run in which it has returned,
one goroutine per article was started and each has finished.  When every article
encodes and the engine answers every request without error, then under every
schedule, once `indexArticle` has returned every goroutine has returned normally
and the log holds one line per article (10 lines for 10 articles), each from the
decode-and-log branch; and under every schedule of at least `5 N + 1` choices
`indexArticle` does return, with the process alive. -/
theorem indexArticle_waits (cd : Codec) (es : Engine) (articles : List Article)
    (schedule : List Nat) :
    ((indexArticle cd es articles schedule).returned = true →
        (indexArticle cd es articles schedule).tasks.length = articles.length
        ∧ ∀ t ∈ (indexArticle cd es articles schedule).tasks,
            t.pc = .done ∨ ∃ msg, t.pc = .unwound msg)
    ∧ (cd.encodes articles → es.answers cd.healthy →
        ((indexArticle cd es articles schedule).returned = true →
          (∀ t ∈ (indexArticle cd es articles schedule).tasks, t.pc = .done)
          ∧ (indexArticle cd es articles schedule).log.length = articles.length
          ∧ (∀ l ∈ (indexArticle cd es articles schedule).log, l.fromDecodeBranch = true)
          ∧ (articles.length = 10 → (indexArticle cd es articles schedule).log.length = 10))
        ∧ (5 * articles.length + 1 ≤ schedule.length →
            (indexArticle cd es articles schedule).returned = true
            ∧ (indexArticle cd es articles schedule).proc = .running)) := by
  have hinv : Inv cd articles (indexArticle cd es articles schedule) :=
    exec_inv schedule State.init (Inv_init cd articles)
  refine ⟨finished_of_returned hinv, ?_⟩
  intro henc hans
  have hok : ∀ res, cd.healthy res → cd.acceptable res := fun _ h => Or.inr h.2
  have halive : Alive cd.healthy (indexArticle cd es articles schedule) :=
    exec_alive hok henc hans schedule State.init (Inv_init cd articles) (Alive_init _)
  constructor
  · intro hret
    obtain ⟨hl, hfin⟩ := finished_of_returned hinv hret
    have hdone : ∀ t ∈ (indexArticle cd es articles schedule).tasks, t.pc = .done := by
      intro t ht
      rcases hfin t ht with h | ⟨msg, h⟩
      · exact h
      · have := halive.pcs t ht
        rw [h] at this
        exact absurd this (by simp [TaskPC.fine])
    have hlog : (indexArticle cd es articles schedule).log.length = articles.length := by
      rw [hinv.log, sum_map_one _ _ (fun t ht => by rw [hdone t ht]; rfl), hl]
    refine ⟨hdone, hlog, ?_, fun h10 => by rw [hlog, h10]⟩
    intro l hl'
    by_contra hb
    obtain ⟨res, hres, herr⟩ := halive.lines l hl' (by simpa using hb)
    rw [hres.1] at herr
    exact absurd herr (by simp)
  · intro hlen
    obtain ⟨hret, hrun, _⟩ := complete_run hok henc hans schedule hlen
    exact ⟨hret, hrun⟩

/-- C9, at the generated collection of 10 articles indexed into the accepting
engine, under two different schedules. -/
theorem indexArticle_waits_witness :
    plainCodec.encodes sampleArticles
      ∧ freshEngine.answers plainCodec.healthy
      ∧ sampleArticles.length = 10
      ∧ 5 * sampleArticles.length + 1 ≤ (List.replicate 51 0).length
      ∧ (indexArticle plainCodec freshEngine sampleArticles (List.replicate 51 0)).returned = true
      ∧ (indexArticle plainCodec freshEngine sampleArticles (List.replicate 51 0)).log.length = 10
      ∧ 5 * sampleArticles.length + 1 ≤ ((List.range 51).map (fun k => 7 * k + 3)).length
      ∧ (indexArticle plainCodec freshEngine sampleArticles
          ((List.range 51).map (fun k => 7 * k + 3))).log.length = 10 := by
  have henc : plainCodec.encodes sampleArticles := fun a _ => ⟨_, rfl⟩
  have hans : freshEngine.answers plainCodec.healthy := fun _ _ =>
    ⟨createdResponse, rfl, by decide, fun r hr => ⟨1, by
      have : r = [("_index", .str "testindex"), ("_id", .str "1"), ("_version", .float64 1),
          ("result", .str "created")] := (Except.ok.inj hr).symm
      rw [this]; rfl⟩⟩
  have h10 : sampleArticles.length = 10 := by decide
  have hlen : 5 * sampleArticles.length + 1 ≤ (List.replicate 51 0).length := by decide
  have hlen2 : 5 * sampleArticles.length + 1 ≤ ((List.range 51).map (fun k => 7 * k + 3)).length :=
    by decide
  have h := (indexArticle_waits plainCodec freshEngine sampleArticles
    (List.replicate 51 0)).2 henc hans
  have h2 := (indexArticle_waits plainCodec freshEngine sampleArticles
    ((List.range 51).map (fun k => 7 * k + 3))).2 henc hans
  exact ⟨henc, hans, h10, hlen, (h.2 hlen).1, (h.1 (h.2 hlen).1).2.2.2 h10, hlen2,
    (h2.1 (h2.2 hlen2).1).2.2.2 h10⟩

/-- The converted value is a 64-bit integer, and it is the truncation whenever
that is one. -/
theorem goInt_spec (overflow : Rat → Int) (x : Rat) :
    -(2 ^ 63) ≤ goInt overflow x ∧ goInt overflow x < 2 ^ 63
      ∧ (-(2 ^ 63) ≤ truncate x → truncate x < 2 ^ 63 → goInt overflow x = truncate x) := by
  unfold goInt wrap64
  split_ifs with h
  · exact ⟨h.1, h.2, fun _ _ => rfl⟩
  · refine ⟨by omega, by omega, fun h1 h2 => absurd ⟨h1, h2⟩ h⟩

/-- C10 fails as stated: the engine answers 201 Created with the JSON object
`\x7b"result":"created"\x7d`; the response is not an error response and the body decodes
to an object without `_version`, yet the handler panics on
`r["_version"].(float64)` before it logs anything, and the run of the one
goroutine ends with the process crashed and an empty log.  A `_version` that is
a string does the same. -/
theorem handleResponse_panics_without_version :
    bareEngine.Index [] (indexRequest (newArticle 1 ⟨0⟩) "article 1") = .ok bareResponse
      ∧ bareResponse.IsError = false
      ∧ bareResponse.Body = "\x7b\"result\":\"created\"\x7d"
      ∧ (∃ r, plainCodec.decode bareResponse.Body = .ok r
          ∧ r.map (fun e => e.1) = ["result"] ∧ (r.lookup "_version").isNone = true)
      ∧ handleResponse plainCodec (newArticle 1 ⟨0⟩) bareResponse = .panicked conversionPanic
      ∧ textResponse.IsError = false
      ∧ textResponse.Body = "\x7b\"result\":\"created\",\"_version\":\"1\"\x7d"
      ∧ handleResponse plainCodec (newArticle 1 ⟨0⟩) textResponse = .panicked conversionPanic
      ∧ (indexArticle plainCodec bareEngine [newArticle 1 ⟨0⟩] (List.replicate 6 0)).proc
          = .crashed conversionPanic
      ∧ (indexArticle plainCodec bareEngine [newArticle 1 ⟨0⟩] (List.replicate 6 0)).log.length
          = 0
      ∧ (indexArticle plainCodec bareEngine [newArticle 1 ⟨0⟩] (List.replicate 6 0)).tasks.map
          (fun t => t.pc) = [.unwound conversionPanic] :=
  ⟨rfl, by decide, by decide, ⟨_, rfl, by decide, by decide⟩, rfl, by decide, by decide, rfl,
    by decide, by decide, by decide⟩

/-- C10, amended: for a response that is not an error response and whose body
either does not decode or decodes to an object whose `_version` is a number,
the goroutine logs exactly one line (the parse-error line when the body does
not decode; otherwise the line with the status, `r["result"]` and `_version`
converted to the 64-bit `int`, which is the number with its fraction dropped
whenever that fits in 64 bits) and then completes normally: its next step is
the deferred `wg.Done()`, after which it has no step left, the process still
alive. -/
theorem task_logs_one_line (cd : Codec) (es : Engine) (articles : List Article) (s : State)
    (i : Nat) (t : Task) (res : Response) (hinv : Inv cd articles s)
    (hrun : s.proc = .running) (ht : s.tasks.get? i = some t) (hpc : t.pc = .responded res)
    (hne : res.IsError = false) (hwf : cd.wellFormed res) :
    ∃ line,
      (∀ e, cd.decode res.Body = .error e → line = .parseError e)
      ∧ (∀ r, cd.decode res.Body = .ok r →
          ∃ x v, r.lookup "_version" = some (.float64 x)
            ∧ line = .indexed res.Status (r.lookup "result") v
            ∧ v = goInt cd.overflow x
            ∧ -(2 ^ 63) ≤ v ∧ v < 2 ^ 63
            ∧ (-(2 ^ 63) ≤ truncate x → truncate x < 2 ^ 63 → v = truncate x))
      ∧ handleResponse cd t.article res = .logged line
      ∧ step cd es articles s (.task i)
          = some { s with log := s.log ++ [line],
                          tasks := s.tasks.set i { t with pc := .logged } }
      ∧ step cd es articles
            { s with log := s.log ++ [line], tasks := s.tasks.set i { t with pc := .logged } }
            (.task i)
          = some { s with log := s.log ++ [line], wg := s.wg - 1,
                          tasks := s.tasks.set i { t with pc := .done } }
      ∧ step cd es articles
            { s with log := s.log ++ [line], wg := s.wg - 1,
                     tasks := s.tasks.set i { t with pc := .done } }
            (.task i) = none := by
  have hi : i < s.tasks.length := by
    by_contra hc
    rw [List.get?_eq_getElem?, List.getElem?_eq_none (by omega)] at ht
    simp at ht
  have hline : ∃ line,
      (∀ e, cd.decode res.Body = .error e → line = .parseError e)
      ∧ (∀ r, cd.decode res.Body = .ok r →
          ∃ x v, r.lookup "_version" = some (.float64 x)
            ∧ line = .indexed res.Status (r.lookup "result") v
            ∧ v = goInt cd.overflow x
            ∧ -(2 ^ 63) ≤ v ∧ v < 2 ^ 63
            ∧ (-(2 ^ 63) ≤ truncate x → truncate x < 2 ^ 63 → v = truncate x))
      ∧ handleResponse cd t.article res = .logged line := by
    unfold handleResponse
    simp only [hne, Bool.false_eq_true, if_false]
    cases hd : cd.decode res.Body with
    | error e =>
      refine ⟨.parseError e, ?_, ?_, rfl⟩
      · intro e' he'; cases he'; rfl
      · intro r hr; cases hr
    | ok r =>
      obtain ⟨x, hx⟩ := hwf r hd
      obtain ⟨hlo, hhi, hex⟩ := goInt_spec cd.overflow x
      refine ⟨.indexed res.Status (r.lookup "result") (goInt cd.overflow x), ?_, ?_, ?_⟩
      · intro e he; cases he
      · intro r' hr'; cases hr'; exact ⟨x, _, hx, rfl, rfl, hlo, hhi, hex⟩
      · simp only [hx]
  obtain ⟨line, h1, h2, h3⟩ := hline
  have hstep1 : step cd es articles s (.task i)
      = some { s with log := s.log ++ [line],
                      tasks := s.tasks.set i { t with pc := .logged } } := by
    rw [step_of_running hrun]
    simp only [stepTask, ht, hpc, h3]
  have hinv1 := step_inv hinv hstep1
  have ht1 : (s.tasks.set i { t with pc := .logged }).get? i
      = some { t with pc := TaskPC.logged } := by
    rw [List.get?_eq_getElem?, List.getElem?_set_self hi]
  have hstep2 : step cd es articles
        { s with log := s.log ++ [line], tasks := s.tasks.set i { t with pc := .logged } }
        (.task i)
      = some { s with log := s.log ++ [line], wg := s.wg - 1,
                      tasks := s.tasks.set i { t with pc := .done } } := by
    rw [step_of_running (by exact hrun)]
    have hw := wgDone_eq hinv1 ht1 rfl .done
    simp only [stepTask, ht1, hw, List.set_set]
  refine ⟨line, h1, h2, h3, hstep1, hstep2, ?_⟩
  have ht2 : (s.tasks.set i { t with pc := .done }).get? i
      = some { t with pc := TaskPC.done } := by
    rw [List.get?_eq_getElem?, List.getElem?_set_self hi]
  rw [step_of_running (by exact hrun)]
  simp only [stepTask, ht2]

/-- C10 amended, at the state the accepting engine's run is in after the first
goroutine was started and received its acknowledgement: the line logged carries
the status `201 Created`, the result `created` and the version 1. -/
theorem task_logs_one_line_witness :
    (indexArticle plainCodec freshEngine [newArticle 1 ⟨0⟩] [0, 0]).proc = .running
      ∧ (indexArticle plainCodec freshEngine [newArticle 1 ⟨0⟩] [0, 0]).tasks.get? 0
          = some { article := newArticle 1 ⟨0⟩, pc := .responded createdResponse }
      ∧ createdResponse.IsError = false
      ∧ plainCodec.wellFormed createdResponse
      ∧ createdResponse.Body
          = "\x7b\"_index\":\"testindex\",\"_id\":\"1\",\"_version\":1,\"result\":\"created\"\x7d"
      ∧ handleResponse plainCodec (newArticle 1 ⟨0⟩) createdResponse
          = .logged (.indexed "201 Created" (some (.str "created")) 1) := by
  have hwf : plainCodec.wellFormed createdResponse := fun r hr => ⟨1, by
    have : r = [("_index", .str "testindex"), ("_id", .str "1"), ("_version", .float64 1),
        ("result", .str "created")] := (Except.ok.inj hr).symm
    rw [this]; rfl⟩
  have hinv : Inv plainCodec [newArticle 1 ⟨0⟩]
      (indexArticle plainCodec freshEngine [newArticle 1 ⟨0⟩] [0, 0]) :=
    exec_inv _ State.init (Inv_init _ _)
  obtain ⟨line, _, h2, h3, _⟩ := task_logs_one_line plainCodec freshEngine [newArticle 1 ⟨0⟩]
    (indexArticle plainCodec freshEngine [newArticle 1 ⟨0⟩] [0, 0]) 0
    { article := newArticle 1 ⟨0⟩, pc := .responded createdResponse } createdResponse
    hinv (by decide) (by decide) rfl (by decide) hwf
  obtain ⟨x, v, hx, hline, _, _, _, hex⟩ := h2 _ rfl
  have hx1 : x = 1 := by
    have := Option.some.inj hx
    exact (JSONValue.float64.inj this).symm
  subst hx1
  have hv : v = 1 := hex (by decide) (by decide)
  subst hv
  exact ⟨by decide, by decide, by decide, hwf, by decide, by rw [h3, hline]; rfl⟩

end ESPoc
